import Mathlib

/-!
# gocryptfs: a shallow embedding of `internal/contentenc/content.go` and `pathfs_frontend/fs.go`

Byte slices and Go strings are lists of byte values, `uint64` values are
naturals reduced modulo `2^64` wherever the Go code can wrap, a Go `panic` is
the `error` side of `Except Panic` (`none` where a function has no other
failure), and a Go `(value, error)` pair is a Lean pair
whose second component is `Option Err`.  The AEAD cipher and the nonce generator
live in the `cryptocore` package, outside the embedded files: the cipher is a
parameter of the model and the nonce drawn for a block is an argument of the
encrypting functions.  The operations of `fs.go` run in a state monad over the
list of calls made to the backing store.
-/

namespace Gocryptfs

/-! ## Data model -/

/-- A Go byte slice, by its contents. -/
abbrev Bytes := List Nat

/-- Error values that `DecryptBlock` can return. -/
inductive Err
  /-- The value of `errors.New("Block is too short")`. -/
  | blockTooShort
  /-- The value of `errors.New("all-zero nonce")`. -/
  | allZeroNonce
  /-- The value of `stupidgcm.ErrAuth`. -/
  | ErrAuth
  /-- Any other error value an AEAD backend returns from `Open`. -/
  | other (msg : String)
  deriving DecidableEq, Repr

/-- The ways the embedded functions can panic. -/
inductive Panic
  /-- The panic `log.Panicf("unaligned MAX_KERNEL_WRITE=%d", ...)` of `New`. -/
  | unalignedMaxKernelWrite
  /-- The runtime panic of an integer division by zero. -/
  | divideByZero
  /-- The panic `log.Panic("wrong nonce length")` of `doEncryptBlock`. -/
  | wrongNonceLength
  /-- The panic `log.Panicf("unexpected ciphertext length: ...")` of `doEncryptBlock`. -/
  | unexpectedCiphertextLength
  /-- The runtime panic of a slice expression or index out of range. -/
  | sliceBounds
  deriving DecidableEq, Repr

/-- The constant `DefaultBS`. -/
def DefaultBS : Nat := 4096

/-- The constant `DefaultIVBits`. -/
def DefaultIVBits : Nat := 128

/-- The constant `cryptocore.AuthTagLen`: the length of the authentication tag
(the spec's `T`), 16 bytes. -/
def AuthTagLen : Nat := 16

/-- The constant `fuse.MAX_KERNEL_WRITE` of the go-fuse library, `128 * 1024`. -/
def MAX_KERNEL_WRITE : Nat := 128 * 1024

/-- The constant `encryptMaxSplit`. -/
def encryptMaxSplit : Nat := 2

/-- Modelled from the spec: the AEAD cipher behind `cryptoCore.AEADCipher` (the
package `cryptocore` is not among the sources), by what `Seal` and `Open` append
to their `dst` argument.  `seal(key, nonce, aad, plaintext)` is
`ciphertext ‖ tag`: an encrypted payload as long as the plaintext followed by a
tag of `AuthTagLen` bytes.  `Open` also returns an error value; the bytes it
returns next to a non-nil error are whatever the backend left there. -/
structure AEAD where
  /-- The sealed bytes (encrypted payload and tag) for nonce, plaintext, associated data. -/
  sealTo : Bytes → Bytes → Bytes → Bytes
  /-- The opened bytes and the error for nonce, ciphertext, associated data. -/
  openTo : Bytes → Bytes → Bytes → Bytes × Option Err
  /-- The sealed bytes are the payload plus the tag. -/
  sealTo_length : ∀ nonce plaintext aData,
    (sealTo nonce plaintext aData).length = plaintext.length + AuthTagLen

/-- The method `Seal(dst, nonce, plaintext, aData)`: appends the sealed bytes to `dst`. -/
def AEAD.Seal (a : AEAD) (dst nonce plaintext aData : Bytes) : Bytes :=
  dst ++ a.sealTo nonce plaintext aData

/-- The method `Open(dst, nonce, ciphertext, aData)`: appends the opened bytes to `dst`. -/
def AEAD.Open (a : AEAD) (dst nonce ciphertext aData : Bytes) : Bytes × Option Err :=
  (dst ++ (a.openTo nonce ciphertext aData).1, (a.openTo nonce ciphertext aData).2)

/-- Modelled from the spec: the fields of `cryptocore.CryptoCore` that
`content.go` reads.  `IVLen` is a Go `int` that sizes the nonce buffer (16 bytes
for content, 12 for legacy key wrapping); the bound keeps `plainBS + IVLen +
AuthTagLen` inside `uint64` and `int`. -/
structure CryptoCore where
  /-- The field `AEADCipher`. -/
  AEADCipher : AEAD
  /-- The field `IVLen`, the nonce length in bytes. -/
  IVLen : Nat
  /-- The range of `IVLen`. -/
  IVLen_lt : IVLen < 2 ^ 32

/-- One call of the AEAD cipher, with its arguments in the order of the Go call. -/
inductive AEADCall
  /-- A call `Seal(dst, nonce, plaintext, aData)`. -/
  | Seal (dst nonce plaintext aData : Bytes)
  /-- A call `Open(dst, nonce, ciphertext, aData)`. -/
  | Open (dst nonce ciphertext aData : Bytes)
  deriving DecidableEq, Repr

/-- The associated data argument of an AEAD call. -/
def AEADCall.aData : AEADCall → Bytes
  | .Seal _ _ _ a => a
  | .Open _ _ _ a => a

/-- Modelled from the spec: the buffer pool type `bPool` (its file is not among
the sources).  A pool hands out buffers of exactly `sliceLen` bytes; what they
hold is whatever earlier users left there (`junk`).  A buffer goes back to its
pool with `Put`. -/
structure bPool where
  /-- The size of every buffer of the pool. -/
  sliceLen : Nat
  /-- The stale contents of a buffer, by position. -/
  junk : Nat → Nat

/-- Modelled from the spec: `newBPool(sliceLen)`. -/
def newBPool (sliceLen : Nat) (junk : Nat → Nat) : bPool := ⟨sliceLen, junk⟩

/-- Modelled from the spec: `Get()` returns a buffer of exactly the pool's size. -/
def bPool.Get (p : bPool) : Bytes := (List.range p.sliceLen).map p.junk

/-- Modelled from the spec: `Put(s)` returns a buffer to the pool (the file of
`bPool` is not among the sources).  A pool holds buffers of exactly its size:
the slice is taken at its full capacity, and a size other than the pool's is a
programmer error (a misaligned pool size), fatal to the process.  The slice is
given by its capacity; the result is `none` for the panic.  The call in
`DecryptBlocks` has no effect on its results and is left out there. -/
def bPool.Put (p : bPool) (capacity : Nat) : Option Unit :=
  if capacity ≠ p.sliceLen then none else some ()

/-- The struct `ContentEnc`. -/
structure ContentEnc where
  /-- Cryptographic primitives. -/
  cryptoCore : CryptoCore
  /-- Plaintext block size. -/
  plainBS : Nat
  /-- Ciphertext block size. -/
  cipherBS : Nat
  /-- All-zero block of size cipherBS. -/
  allZeroBlock : Bytes
  /-- All-zero block of size IVLen. -/
  allZeroNonce : Bytes
  /-- Force decode even if the integrity check fails. -/
  forceDecode : Bool
  /-- Ciphertext block pool. -/
  cBlockPool : bPool
  /-- Ciphertext request data pool. -/
  CReqPool : bPool
  /-- Plaintext block pool. -/
  pBlockPool : bPool
  /-- Plaintext request data pool. -/
  PReqPool : bPool

/-- The struct literal that `New` returns. -/
def newContentEnc (cc : CryptoCore) (plainBS : Nat) (forceDecode : Bool)
    (junk : Nat → Nat) : ContentEnc :=
  let cipherBS := (plainBS + cc.IVLen + AuthTagLen) % 2 ^ 64
  let cReqSize := (MAX_KERNEL_WRITE / plainBS * cipherBS) % 2 ^ 64
  { cryptoCore := cc
    plainBS := plainBS
    cipherBS := cipherBS
    allZeroBlock := List.replicate cipherBS 0
    allZeroNonce := List.replicate cc.IVLen 0
    forceDecode := forceDecode
    cBlockPool := newBPool cipherBS junk
    CReqPool := newBPool cReqSize junk
    pBlockPool := newBPool plainBS junk
    PReqPool := newBPool MAX_KERNEL_WRITE junk }

/-- The function `New`: it panics on a division by a zero block size and on a
block size that does not divide `MAX_KERNEL_WRITE`. -/
def New (cc : CryptoCore) (plainBS : Nat) (forceDecode : Bool)
    (junk : Nat → Nat) : Except Panic ContentEnc :=
  if plainBS = 0 then .error .divideByZero
  else if MAX_KERNEL_WRITE % plainBS ≠ 0 then .error .unalignedMaxKernelWrite
  else .ok (newContentEnc cc plainBS forceDecode junk)

/-! ## Byte-level helpers of the Go runtime and library -/

/-- The eight bytes of `v` as a `uint64`, most significant first. -/
def be64 (v : Nat) : Bytes :=
  [v / 2 ^ 56 % 256, v / 2 ^ 48 % 256, v / 2 ^ 40 % 256, v / 2 ^ 32 % 256,
   v / 2 ^ 24 % 256, v / 2 ^ 16 % 256, v / 2 ^ 8 % 256, v % 256]

/-- The call `binary.BigEndian.PutUint64(b, v)` on a slice of at least eight
bytes: the first eight bytes of `b` are overwritten. -/
def PutUint64 (b : Bytes) (v : Nat) : Bytes := be64 v ++ b.drop 8

/-- The builtin `copy(dst, src)`: the contents of `dst` afterwards. -/
def goCopy (dst src : Bytes) : Bytes := src.take dst.length ++ dst.drop src.length

/-- The conversion `int(x)` of a `uint64`. -/
def toInt64 (x : Nat) : Int :=
  if x % 2 ^ 64 < 2 ^ 63 then ((x % 2 ^ 64 : Nat) : Int) else ((x % 2 ^ 64 : Nat) : Int) - 2 ^ 64

/-! ## Decryption -/

/-- The method `DecryptBlock`, together with the AEAD calls it makes. -/
def DecryptBlockLog (be : ContentEnc) (ciphertext : Bytes) (blockNo : Nat)
    (fileID : Bytes) : (Bytes × Option Err) × List AEADCall :=
  -- Empty block?
  if ciphertext.length = 0 then ((ciphertext, none), [])
  -- All-zero block?
  else if ciphertext = be.allZeroBlock then ((List.replicate be.plainBS 0, none), [])
  else if ciphertext.length < be.cryptoCore.IVLen then (([], some .blockTooShort), [])
  else
    -- Extract nonce
    let nonce := ciphertext.take be.cryptoCore.IVLen
    if nonce = be.allZeroNonce then (([], some .allZeroNonce), [])
    else
      let ciphertext := ciphertext.drop be.cryptoCore.IVLen
      -- Decrypt
      let plaintext := be.pBlockPool.Get
      let plaintext := plaintext.take 0
      let aData := List.replicate 8 0
      let aData := aData ++ fileID
      let aData := PutUint64 aData blockNo
      let res := be.cryptoCore.AEADCipher.Open plaintext nonce ciphertext aData
      let calls := [AEADCall.Open plaintext nonce ciphertext aData]
      match res.2 with
      | some err =>
        if be.forceDecode && err == Err.ErrAuth then ((res.1, some err), calls)
        else (([], some err), calls)
      | none => ((res.1, none), calls)

/-- The method `DecryptBlock`. -/
def DecryptBlock (be : ContentEnc) (ciphertext : Bytes) (blockNo : Nat)
    (fileID : Bytes) : Bytes × Option Err :=
  (DecryptBlockLog be ciphertext blockNo fileID).1

/-- The loop of `DecryptBlocks`, with the loop variables `cBuf` (the unread
part), `firstBlockNo`, `pBuf` and `err`.  The result is `none` when the loop
has not ended after `fuel` iterations. -/
def DecryptBlocksLoop (be : ContentEnc) (fileID : Bytes) :
    Nat → Bytes → Nat → Bytes → Option Err → Option (Bytes × Option Err)
  | fuel, cBuf, firstBlockNo, pBuf, err =>
    if cBuf.length > 0 then
      match fuel with
      | 0 => none
      | fuel + 1 =>
        let cBlock := cBuf.take be.cipherBS
        let cBuf := cBuf.drop be.cipherBS
        let res := DecryptBlock be cBlock firstBlockNo fileID
        if res.2.isSome && !(be.forceDecode && res.2 == some Err.ErrAuth) then
          some (pBuf, res.2)
        else
          DecryptBlocksLoop be fileID fuel cBuf ((firstBlockNo + 1) % 2 ^ 64)
            (pBuf ++ res.1) res.2
    else some (pBuf, err)

/-- The method `DecryptBlocks`; one iteration per input byte is always enough
when the ciphertext block size is positive. -/
def DecryptBlocks (be : ContentEnc) (ciphertext : Bytes) (firstBlockNo : Nat)
    (fileID : Bytes) : Option (Bytes × Option Err) :=
  DecryptBlocksLoop be fileID ciphertext.length ciphertext firstBlockNo
    (be.PReqPool.Get.take 0) none

/-! ## Encryption -/

/-- The method `doEncryptBlock`, together with the AEAD calls it makes. -/
def doEncryptBlockLog (be : ContentEnc) (plaintext : Bytes) (blockNo : Nat)
    (fileID : Bytes) (nonce : Bytes) : Except Panic Bytes × List AEADCall :=
  -- Empty block?
  if plaintext.length = 0 then (.ok plaintext, [])
  else if nonce.length ≠ be.cryptoCore.IVLen then (.error .wrongNonceLength, [])
  else
    -- Block is authenticated with block number and file ID
    let aData := List.replicate 8 0
    let aData := PutUint64 aData blockNo
    let aData := aData ++ fileID
    -- Get a cipherBS-sized block of memory, copy the nonce into it and truncate
    -- to nonce length
    let cBlock := be.cBlockPool.Get
    let cBlock := goCopy cBlock nonce
    if cBlock.length < nonce.length then (.error .sliceBounds, [])
    else
      let cBlock := cBlock.take nonce.length
      -- Encrypt plaintext and append to nonce
      let ciphertext := be.cryptoCore.AEADCipher.Seal cBlock nonce plaintext aData
      let calls := [AEADCall.Seal cBlock nonce plaintext aData]
      let overhead := toInt64 ((be.cipherBS + 2 ^ 64 - be.plainBS) % 2 ^ 64)
      if (plaintext.length : Int) + overhead ≠ (ciphertext.length : Int) then
        (.error .unexpectedCiphertextLength, calls)
      else (.ok ciphertext, calls)

/-- The method `doEncryptBlock`. -/
def doEncryptBlock (be : ContentEnc) (plaintext : Bytes) (blockNo : Nat)
    (fileID : Bytes) (nonce : Bytes) : Except Panic Bytes :=
  (doEncryptBlockLog be plaintext blockNo fileID nonce).1

/-- The method `EncryptBlock`; `nonce` is the value that
`be.cryptoCore.IVGenerator.Get()` returns for this call. -/
def EncryptBlock (be : ContentEnc) (nonce : Bytes) (plaintext : Bytes) (blockNo : Nat)
    (fileID : Bytes) : Except Panic Bytes :=
  doEncryptBlock be plaintext blockNo fileID nonce

/-- The slice expression `s[low:high]` on a slice whose capacity is its length. -/
def goSlice {α : Type} (s : List α) (low high : Nat) : Except Panic (List α) :=
  if low ≤ high ∧ high ≤ s.length then .ok ((s.drop low).take (high - low))
  else .error .sliceBounds

/-- The loop of `doEncryptBlocks` from index `i` on: `out[i]` is assigned the
encryption of the block at index `i` under block number `firstBlockNo + i`
(in `uint64`).  `nonceOf i` is the nonce drawn for the block at index `i`.
The result is `none` when a call panics. -/
def doEncryptBlocksLoop (be : ContentEnc) (nonceOf : Nat → Bytes) (firstBlockNo : Nat)
    (fileID : Bytes) : Nat → List Bytes → List Bytes → Option (List Bytes)
  | _, [], out => some out
  | i, v :: rest, out =>
    match EncryptBlock be (nonceOf i) v ((firstBlockNo + i) % 2 ^ 64) fileID with
    | .error _ => none
    | .ok c =>
      if i < out.length then
        doEncryptBlocksLoop be nonceOf firstBlockNo fileID (i + 1) rest (out.set i c)
      else none

/-- The method `doEncryptBlocks`: the contents of `out` afterwards. -/
def doEncryptBlocks (be : ContentEnc) (nonceOf : Nat → Bytes) (inp : List Bytes)
    (out : List Bytes) (firstBlockNo : Nat) (fileID : Bytes) : Option (List Bytes) :=
  doEncryptBlocksLoop be nonceOf firstBlockNo fileID 0 inp out

/-- The bounds `low` and `high` that worker `i` of `EncryptBlocks` computes. -/
def groupBounds (len ncpu groupSize i : Nat) : Nat × Nat :=
  (i * groupSize, if i = ncpu - 1 then len else (i + 1) * groupSize)

/-- The body of the goroutine that `EncryptBlocks` starts for group `i`: the
contents of `ciphertextBlocks` after the worker has filled its slots. -/
def encryptWorker (be : ContentEnc) (nonceOf : Nat → Bytes) (plaintextBlocks : List Bytes)
    (firstBlockNo : Nat) (fileID : Bytes) (ncpu groupSize : Nat) (i : Nat)
    (ciphertextBlocks : List Bytes) : Option (List Bytes) :=
  let low := (groupBounds plaintextBlocks.length ncpu groupSize i).1
  let high := (groupBounds plaintextBlocks.length ncpu groupSize i).2
  match goSlice plaintextBlocks low high, goSlice ciphertextBlocks low high with
  | .ok inp, .ok out =>
    match doEncryptBlocks be (fun j => nonceOf (low + j)) inp out
        ((firstBlockNo + low) % 2 ^ 64) fileID with
    | some filled => some (ciphertextBlocks.take low ++ filled ++ ciphertextBlocks.drop high)
    | none => none
  | _, _ => none

/-- The capacity of the slice that `EncryptBlock` returned for a plaintext block:
for an empty block it is the caller's own slice (`return plaintext`), of
capacity `plaintextCap`; otherwise `Seal` appended to `cBlock`, the buffer taken
from `cBlockPool` cut to the nonce: in place while the result fits into the
buffer, and into a newly allocated array of the result's length when it does
not. -/
def ciphertextCap (be : ContentEnc) (plaintext : Bytes) (plaintextCap : Nat)
    (ciphertext : Bytes) : Nat :=
  if plaintext.length = 0 then plaintextCap
  else if ciphertext.length ≤ be.cBlockPool.sliceLen then be.cBlockPool.sliceLen
  else ciphertext.length

/-- The loop of `EncryptBlocks` that concatenates the ciphertext blocks and
returns each to `cBlockPool`, from index `i` on.  Slot `i` holds what
`EncryptBlock` returned for block `i`, the head of `plaintextBlocks`; `capOf i`
is the capacity of that plaintext block.  The result is `none` when `Put`
panics. -/
def concatLoop (be : ContentEnc) (capOf : Nat → Nat) :
    Nat → List Bytes → List Bytes → Bytes → Option Bytes
  | _, _, [], out => some out
  | i, plaintextBlocks, v :: rest, out =>
    -- Return the memory to cBlockPool
    match be.cBlockPool.Put (ciphertextCap be (plaintextBlocks.headD []) (capOf i) v) with
    | none => none
    | some _ => concatLoop be capOf (i + 1) plaintextBlocks.tail rest (out ++ v)

/-- The method `EncryptBlocks`.  `numCPU` is the value of `runtime.NumCPU()`,
`sched` the order in which the started workers run, `nonceOf i` the nonce drawn
for the block at index `i`, `capOf i` the capacity of the plaintext block at
index `i`.  The result is `none` when a call panics. -/
def EncryptBlocks (be : ContentEnc) (numCPU : Nat) (sched : List Nat) (nonceOf : Nat → Bytes)
    (capOf : Nat → Nat) (plaintextBlocks : List Bytes) (firstBlockNo : Nat)
    (fileID : Bytes) : Option Bytes :=
  let ciphertextBlocks := List.replicate plaintextBlocks.length ([] : Bytes)
  let filled : Option (List Bytes) :=
    -- For large writes, we parallelize encryption.
    if plaintextBlocks.length ≥ 32 then
      let ncpu := if numCPU > encryptMaxSplit then encryptMaxSplit else numCPU
      if ncpu = 0 then none
      else
        let groupSize := plaintextBlocks.length / ncpu
        sched.foldlM
          (fun cts i =>
            encryptWorker be nonceOf plaintextBlocks firstBlockNo fileID ncpu groupSize i cts)
          ciphertextBlocks
    else doEncryptBlocks be nonceOf plaintextBlocks ciphertextBlocks firstBlockNo fileID
  -- Concatenate ciphertext into a single byte array.
  match filled with
  | none => none
  | some cts => concatLoop be capOf 0 plaintextBlocks cts (be.CReqPool.Get.take 0)

/-! ## Merging -/

/-- The method `MergeBlocks`. -/
def MergeBlocks (be : ContentEnc) (oldData newData : Bytes) (offset : Int) :
    Except Panic Bytes :=
  -- Fastpath for small-file creation
  if oldData.length = 0 ∧ offset = 0 then .ok newData
  else
    -- Make block of maximum size
    let out := List.replicate be.plainBS 0
    -- Copy old and new data into it
    let out := goCopy out oldData
    let l := newData.length
    if offset < 0 ∨ offset + (l : Int) > (out.length : Int) then .error .sliceBounds
    else
      let off := offset.toNat
      let out := out.take off ++ goCopy ((out.drop off).take l) newData ++ out.drop (off + l)
      -- Crop to length
      let outLen : Int := (oldData.length : Int)
      let newLen : Int := offset + (newData.length : Int)
      let outLen := if outLen < newLen then newLen else outLen
      if outLen > (out.length : Int) then .error .sliceBounds
      else .ok (out.take outLen.toNat)

/-! ## Reference functions, following the wording of the specification -/

/-- The associated data of the specification: `big-endian-uint64(blockNo) ‖ fileID`. -/
def aDataSpec (blockNo : Nat) (fileID : Bytes) : Bytes := be64 blockNo ++ fileID

/-- The list `EncryptBlock(blocks[i], n + i, f), EncryptBlock(blocks[i+1], n + i + 1, f), ...`
for the blocks from index `i` on, `none` when a block's encryption panics. -/
def encryptEach (be : ContentEnc) (nonceOf : Nat → Bytes) (n : Nat) (f : Bytes) :
    Nat → List Bytes → Option (List Bytes)
  | _, [] => some []
  | i, v :: rest =>
    match EncryptBlock be (nonceOf i) v (n + i) f with
    | .error _ => none
    | .ok c => (encryptEach be nonceOf n f (i + 1) rest).map (fun tail => c :: tail)

/-- The in-order concatenation
`EncryptBlock(blocks[0], n, f) ‖ EncryptBlock(blocks[1], n + 1, f) ‖ ...`. -/
def concatEncrypt (be : ContentEnc) (nonceOf : Nat → Bytes) (blocks : List Bytes) (n : Nat)
    (f : Bytes) : Option Bytes :=
  (encryptEach be nonceOf n f 0 blocks).map List.flatten

/-- The index range `[low, high)` of group `i`, as a list. -/
def groupIndices (len ncpu i : Nat) : List Nat :=
  List.range' (groupBounds len ncpu (len / ncpu) i).1
    ((groupBounds len ncpu (len / ncpu) i).2 - (groupBounds len ncpu (len / ncpu) i).1)

/-- Byte `i` of the overlay of `new` at `offset` on `old`. -/
def overlayByte (old new : Bytes) (offset : Int) (i : Nat) : Nat :=
  if offset ≤ (i : Int) ∧ (i : Int) < offset + (new.length : Int) then
    new.getD ((i : Int) - offset).toNat 0
  else if i < old.length then old.getD i 0
  else 0

/-- The number of chunks of `size` bytes in `n` bytes, the last perhaps shorter. -/
def numChunks (size n : Nat) : Nat := (n + size - 1) / size

/-- Chunk `i` of the input: the bytes from `i * size` on, at most `size` of them. -/
def chunkAt (size : Nat) (ciphertext : Bytes) (i : Nat) : Bytes :=
  (ciphertext.drop (i * size)).take size

/-! ## A small cipher and instances, for concrete evaluations -/

/-- A 16-byte tag: a checksum of nonce and associated data, repeated. -/
def toyTag (nonce aData : Bytes) : Bytes :=
  List.replicate 16 ((nonce.sum + aData.sum) % 256)

/-- A cipher with a 16-byte tag: every payload byte is incremented, the tag is
`toyTag`; opening checks the tag and returns the decremented payload in both
cases. -/
def toyAEAD : AEAD where
  sealTo nonce plaintext aData := plaintext.map (fun x => (x + 1) % 256) ++ toyTag nonce aData
  openTo nonce ciphertext aData :=
    ((ciphertext.take (ciphertext.length - 16)).map (fun x => (x + 255) % 256),
      if 16 ≤ ciphertext.length ∧ ciphertext.drop (ciphertext.length - 16) = toyTag nonce aData
      then none else some Err.ErrAuth)
  sealTo_length _ _ _ := by simp [toyTag, AuthTagLen]

/-- A crypto core with 2-byte nonces over `toyAEAD`. -/
def toyCore : CryptoCore := ⟨toyAEAD, 2, by decide⟩

/-- A crypto core with 16-byte nonces over `toyAEAD`. -/
def toyCore16 : CryptoCore := ⟨toyAEAD, 16, by decide⟩

/-- The content encryptor `New(toyCore, 4, false)`. -/
def toyBE : ContentEnc := newContentEnc toyCore 4 false (fun _ => 0)

/-- The content encryptor `New(toyCore16, 4, false)`. -/
def toyBE16 : ContentEnc := newContentEnc toyCore16 4 false (fun _ => 0)

/-- A cipher with a 16-byte tag whose `Open` rejects every input. -/
def rejectAllAEAD : AEAD where
  sealTo _ plaintext _ := plaintext ++ List.replicate 16 0
  openTo _ _ _ := ([], some Err.ErrAuth)
  sealTo_length _ _ _ := by simp [AuthTagLen]

/-- The content encryptor `New(core, 4, false)` for 2-byte nonces over `rejectAllAEAD`. -/
def rejectAllBE : ContentEnc := newContentEnc ⟨rejectAllAEAD, 2, by decide⟩ 4 false (fun _ => 0)

/-- The content encryptor `New(toyCore, 4, true)`: forceDecode on. -/
def toyForceBE : ContentEnc := newContentEnc toyCore 4 true (fun _ => 0)

/-! ## The path-based frontend, `pathfs_frontend/fs.go` -/

/-- The constant `os.O_RDONLY` (Linux). -/
def O_RDONLY : Nat := 0x0

/-- The constant `os.O_WRONLY` (Linux). -/
def O_WRONLY : Nat := 0x1

/-- The constant `os.O_RDWR` (Linux). -/
def O_RDWR : Nat := 0x2

/-- The constant `os.O_CREATE` (Linux). -/
def O_CREATE : Nat := 0x40

/-- The constant `os.O_APPEND` (Linux). -/
def O_APPEND : Nat := 0x400

/-- The mask `O_ACCMODE` of the access mode bits of open flags. -/
def O_ACCMODE : Nat := 0x3

/-- The Go operator `x &^ y` (bit clear) on non-negative 64-bit `int` values. -/
def andNot (x y : Nat) : Nat := x &&& ((2 ^ 64 - 1) ^^^ y)

/-- The method `mangleOpenFlags`: the pair `(newFlags, writeOnly)`. -/
def mangleOpenFlags (flags : Nat) : Nat × Bool :=
  let newFlags := flags
  if newFlags &&& O_WRONLY > 0 then
    (andNot ((newFlags ^^^ O_WRONLY) ||| O_RDWR) O_APPEND, true)
  else
    -- We also cannot open the file in append mode, we need to seek back for RMW
    (andNot newFlags O_APPEND, false)

/-- The bytes of an ASCII string literal; Go strings are modelled by their bytes. -/
def ascii (s : String) : Bytes := s.toList.map Char.toNat

/-! ### `encoding/base64` of the Go library: `base64.URLEncoding` -/

/-- The alphabet `encodeURL` of `base64.URLEncoding`. -/
def encodeURL : Bytes :=
  ascii "ABCDEFGHIJKLMNOPQRSTUVWXYZabcdefghijklmnopqrstuvwxyz0123456789-_"

/-- The padding character `=` of `base64.URLEncoding`. -/
def padChar : Nat := 61

/-- The character of a 6-bit value. -/
def encodeSextet (s : Nat) : Nat := encodeURL.getD s 0

/-- The 6-bit value of a character of the alphabet, `none` for any other character. -/
def decodeChar (c : Nat) : Option Nat :=
  if encodeURL.indexOf c < 64 then some (encodeURL.indexOf c) else none

/-- The method `EncodeToString` of `base64.URLEncoding`: three bytes become four
characters, the last group is padded. -/
def EncodeToString : Bytes → Bytes
  | [] => []
  | [a] => [encodeSextet (a / 4), encodeSextet (a % 4 * 16), padChar, padChar]
  | [a, b] =>
    [encodeSextet (a / 4), encodeSextet (a % 4 * 16 + b / 16), encodeSextet (b % 16 * 4), padChar]
  | a :: b :: c :: rest =>
    [encodeSextet (a / 4), encodeSextet (a % 4 * 16 + b / 16),
      encodeSextet (b % 16 * 4 + c / 64), encodeSextet (c % 64)] ++ EncodeToString rest

/-- The decoding of the 4-character quanta of a string without line breaks;
`none` is a `CorruptInputError`. -/
def decodeQuanta : Bytes → Option Bytes
  | [] => some []
  | c0 :: c1 :: c2 :: c3 :: rest =>
    match decodeChar c0, decodeChar c1 with
    | some d0, some d1 =>
      if c2 = padChar then
        if c3 = padChar ∧ rest = [] then some [d0 * 4 + d1 / 16] else none
      else
        match decodeChar c2 with
        | none => none
        | some d2 =>
          if c3 = padChar then
            if rest = [] then some [d0 * 4 + d1 / 16, d1 % 16 * 16 + d2 / 4] else none
          else
            match decodeChar c3 with
            | none => none
            | some d3 =>
              (decodeQuanta rest).map
                (fun tail => [d0 * 4 + d1 / 16, d1 % 16 * 16 + d2 / 4, d2 % 4 * 64 + d3] ++ tail)
    | _, _ => none
  | _ => none

/-- The method `DecodeString` of `base64.URLEncoding`: line breaks are removed,
then the quanta are decoded; `none` is a non-nil error. -/
def DecodeString (s : Bytes) : Option Bytes :=
  decodeQuanta (s.filter (fun c => c ≠ 10 ∧ c ≠ 13))

/-! ### Statuses, errors and the backing store -/

/-- The type `fuse.Status`: an errno value, 0 for success. -/
abbrev Status := Nat

/-- The constant `fuse.OK`. -/
def fuse.OK : Status := 0

/-- The constant `fuse.EPERM`. -/
def fuse.EPERM : Status := 1

/-- The constant `fuse.EIO`. -/
def fuse.EIO : Status := 5

/-- The constant `fuse.ENOSYS`. -/
def fuse.ENOSYS : Status := 38

/-- The constant `syscall.ENOTEMPTY` (Linux). -/
def syscall.ENOTEMPTY : Nat := 39

/-- A non-nil Go `error` value, as far as `fuse.ToStatus` tells errors apart. -/
inductive GoError
  /-- A `syscall.Errno`, also wrapped in a path, link or syscall error. -/
  | Errno (n : Nat)
  /-- Any other error value. -/
  | other
  deriving DecidableEq, Repr

/-- The function `fuse.ToStatus` of the go-fuse library. -/
def fuse.ToStatus : Option GoError → Status
  | none => fuse.OK
  | some (.Errno n) => n
  | some .other => fuse.ENOSYS

/-- The fields of `fuse.Attr` that `fs.go` reads or writes. -/
structure Attr where
  /-- The field `Mode`. -/
  Mode : Nat
  /-- The field `Size`. -/
  Size : Nat
  deriving DecidableEq, Repr

/-- The method `IsRegular` of `fuse.Attr`. -/
def Attr.IsRegular (a : Attr) : Bool := a.Mode &&& 0xf000 == 0x8000

/-- The method `IsSymlink` of `fuse.Attr`. -/
def Attr.IsSymlink (a : Attr) : Bool := a.Mode &&& 0xf000 == 0xa000

/-- The type `fuse.DirEntry`. -/
structure DirEntry where
  /-- The field `Mode`. -/
  Mode : Nat
  /-- The field `Name`. -/
  Name : Bytes
  deriving DecidableEq, Repr

/-- The file object that `NewFile(f, writeOnly, fs.CryptFS)` returns, by the
backing file and the write-only indicator. -/
structure File where
  /-- The backing file. -/
  fd : Nat
  /-- The write-only indicator. -/
  writeOnly : Bool
  deriving DecidableEq, Repr

/-- The calls by which `fs.go` reaches the backing store and the state around
it: the loopback file system `fs.FileSystem`, the `os` and `syscall` packages,
and the methods of `FS` and `cryptfs` that live in files outside the sources
(`encryptPath` and `decryptPath` read directory IVs from the backing store). -/
inductive Effect
  /-- The call `fs.encryptPath(plainPath)`. -/
  | encryptPath (plainPath : Bytes)
  /-- The call `fs.decryptPath(cipherPath)`. -/
  | decryptPath (cipherPath : Bytes)
  /-- The call `fs.FileSystem.GetAttr(cName, context)`. -/
  | fsGetAttr (cName : Bytes)
  /-- The call `fs.FileSystem.OpenDir(cDirName, context)`. -/
  | fsOpenDir (cDirName : Bytes)
  /-- The call `fs.CryptFS.ReadDirIV(cDirAbsPath)`. -/
  | ReadDirIV (cDirAbsPath : Bytes)
  /-- The call `os.OpenFile(cPath, flags, perm)`. -/
  | osOpenFile (cPath : Bytes) (flags perm : Nat)
  /-- The call `fs.FileSystem.Chmod(cPath, mode, context)`. -/
  | fsChmod (cPath : Bytes) (mode : Nat)
  /-- The call `fs.FileSystem.Chown(cPath, uid, gid, context)`. -/
  | fsChown (cPath : Bytes) (uid gid : Nat)
  /-- The call `fs.FileSystem.Mknod(cPath, mode, dev, context)`. -/
  | fsMknod (cPath : Bytes) (mode dev : Nat)
  /-- The call `fs.FileSystem.Utimens(cPath, Atime, Mtime, context)`. -/
  | fsUtimens (cPath : Bytes) (Atime Mtime : Option Nat)
  /-- The call `fs.FileSystem.Readlink(cPath, context)`. -/
  | fsReadlink (cPath : Bytes)
  /-- The call `fs.CryptFS.DirIVCacheEnc.Clear()`. -/
  | clearDirIVCache
  /-- The call `os.Mkdir(encPath, mode)`. -/
  | osMkdir (encPath : Bytes) (mode : Nat)
  /-- The call `cryptfs.WriteDirIV(encPath)`. -/
  | WriteDirIV (encPath : Bytes)
  /-- The call `syscall.Rmdir(encPath)`. -/
  | syscallRmdir (encPath : Bytes)
  /-- The call `syscall.Unlink(cPath)`. -/
  | syscallUnlink (cPath : Bytes)
  /-- The call `os.Open(encPath)`. -/
  | osOpen (encPath : Bytes)
  /-- The deferred call `fd.Close()`. -/
  | fdClose (fd : Nat)
  /-- The call `fd.Readdirnames(n)`. -/
  | Readdirnames (fd n : Nat)
  /-- The call `syscall.Fstat(int(fd.Fd()), &st)`. -/
  | Fstat (fd : Nat)
  /-- The call `os.Rename(oldpath, newpath)`. -/
  | osRename (oldpath newpath : Bytes)
  /-- The call `os.Symlink(cTarget, cPath)`. -/
  | osSymlink (cTarget cPath : Bytes)
  /-- The call `fs.FileSystem.Rename(cOldPath, cNewPath, context)`. -/
  | fsRename (cOldPath cNewPath : Bytes)
  /-- The call `os.Link(cOldPath, cNewPath)`. -/
  | osLink (cOldPath cNewPath : Bytes)
  /-- The call `syscall.Access(cPath, mode)`. -/
  | syscallAccess (cPath : Bytes) (mode : Nat)
  deriving DecidableEq, Repr

/-- What a call returns; each call reads the fields of its result type. -/
structure Reply where
  /-- The `fuse.Status` result of a call of `fs.FileSystem`. -/
  status : Status := fuse.OK
  /-- The `error` result of the other calls, `none` for nil. -/
  err : Option GoError := none
  /-- A string result: a path, a link content. -/
  str : Bytes := []
  /-- The `*fuse.Attr` result, `none` for nil. -/
  attr : Option Attr := none
  /-- The `[]fuse.DirEntry` result, `none` for nil. -/
  entries : Option (List DirEntry) := none
  /-- The `[]string` result of `Readdirnames`. -/
  names : List Bytes := []
  /-- The directory IV read. -/
  iv : Bytes := []
  /-- The file opened. -/
  fd : Nat := 0
  /-- The inode number `st.Ino`. -/
  ino : Nat := 0

/-- The struct `Args`, by the fields `fs.go` reads. -/
structure Args where
  /-- The field `Cipherdir`. -/
  Cipherdir : Bytes
  /-- The field `DirIV`. -/
  DirIV : Bool

/-- The struct `FS`.  The embedded `*cryptfs.CryptFS` is given by its content
encryptor and by the methods `fs.go` calls that are defined outside the
sources; the embedded loopback file system and the operating system are given
by `world`, which answers a call after the calls made so far. -/
structure FS where
  /-- The content encryptor of the embedded `CryptFS`. -/
  CryptFS : ContentEnc
  /-- The method `IsFiltered` of `CryptFS`. -/
  IsFiltered : Bytes → Bool
  /-- The method `CipherSizeToPlainSize` of `CryptFS`. -/
  CipherSizeToPlainSize : Nat → Nat
  /-- The method `DecryptName` of `CryptFS`, `none` for a non-nil error. -/
  DecryptName : Bytes → Bytes → Option Bytes
  /-- The field `args`. -/
  args : Args
  /-- The backing store: the reply to a call, after the calls made so far. -/
  world : List Effect → Effect → Reply
  /-- The function `filepath.Join` of the Go library. -/
  Join : Bytes → Bytes → Bytes
  /-- The function `filepath.Dir` of the Go library. -/
  Dir : Bytes → Bytes

/-- Computations of `FS`: the state is the list of calls made so far. -/
abbrev M := StateM (List Effect)

/-- One call: the reply of the world, and the call appended to the calls made. -/
def FS.call (fs : FS) (e : Effect) : M Reply :=
  fun calls => (fs.world calls e, calls ++ [e])

/-- The constant `cryptfs.ConfDefaultName`. -/
def ConfDefaultName : Bytes := ascii "gocryptfs.conf"

/-- The constant `cryptfs.DIRIV_FILENAME`. -/
def DIRIV_FILENAME : Bytes := ascii "gocryptfs.diriv"

/-- The constant `cryptfs.DIRIV_LEN`: a directory IV has 16 bytes. -/
def DIRIV_LEN : Nat := 16

/-! ### The operations of `FS` -/

/-- The method `getBackingPath`: the absolute encrypted path and the error. -/
def FS.getBackingPath (fs : FS) (relPath : Bytes) : M (Bytes × Option GoError) := do
  let r ← fs.call (.encryptPath relPath)
  if r.err.isSome then pure ([], r.err)
  else pure (fs.Join fs.args.Cipherdir r.str, none)

/-- The pure part of `Readlink` with DirIV on: base64 decoding, then
`DecryptBlock` with block number 0 and nil fileID. -/
def FS.decodeLinkTarget (fs : FS) (cTarget : Bytes) : Bytes × Status :=
  -- Since gocryptfs v0.5 symlinks are encrypted like file contents (GCM)
  match DecodeString cTarget with
  | none => ([], fuse.EIO)
  | some cBinTarget =>
    match DecryptBlock fs.CryptFS cBinTarget 0 [] with
    | (_, some _) => ([], fuse.EIO)
    | (target, none) => (target, fuse.OK)

/-- The method `Readlink`. -/
def FS.Readlink (fs : FS) (path : Bytes) : M (Bytes × Status) := do
  let r ← fs.call (.encryptPath path)
  if r.err.isSome then pure ([], fuse.ToStatus r.err)
  else do
    let cPath := r.str
    let l ← fs.call (.fsReadlink cPath)
    if l.status ≠ fuse.OK then pure ([], l.status)
    else
      let cTarget := l.str
      -- Old filesystem: symlinks are encrypted like paths (CBC)
      if !fs.args.DirIV then do
        let d ← fs.call (.decryptPath cTarget)
        if d.err.isSome then pure ([], fuse.EIO)
        else pure (d.str, fuse.OK)
      else pure (fs.decodeLinkTarget cTarget)

/-- The method `GetAttr`. -/
def FS.GetAttr (fs : FS) (name : Bytes) : M (Option Attr × Status) :=
  if fs.IsFiltered name then pure (none, fuse.EPERM)
  else do
    let r ← fs.call (.encryptPath name)
    if r.err.isSome then pure (none, fuse.ToStatus r.err)
    else do
      let cName := r.str
      let g ← fs.call (.fsGetAttr cName)
      match g.attr with
      | none => pure (none, g.status)
      | some a =>
        if a.IsRegular then
          pure (some { a with Size := fs.CipherSizeToPlainSize a.Size }, g.status)
        else if a.IsSymlink then do
          let t ← fs.Readlink name
          pure (some { a with Size := t.1.length }, g.status)
        else pure (some a, g.status)

/-- The loop of `OpenDir` that decrypts the file names. -/
def FS.decryptEntries (fs : FS) (dirName cachedIV : Bytes) (cipherEntries : List DirEntry) :
    List DirEntry :=
  cipherEntries.filterMap fun entry =>
    let cName := entry.Name
    -- silently ignore "gocryptfs.conf" in the top level dir
    if dirName = [] ∧ cName = ConfDefaultName then none
    -- silently ignore "gocryptfs.diriv" everywhere if dirIV is enabled
    else if fs.args.DirIV ∧ cName = DIRIV_FILENAME then none
    else
      match fs.DecryptName cName cachedIV with
      | none => none
      | some name => some { entry with Name := name }

/-- The method `OpenDir`. -/
def FS.OpenDir (fs : FS) (dirName : Bytes) : M (List DirEntry × Status) := do
  let r ← fs.call (.encryptPath dirName)
  if r.err.isSome then pure ([], fuse.ToStatus r.err)
  else do
    let cDirName := r.str
    -- Read ciphertext directory
    let d ← fs.call (.fsOpenDir cDirName)
    match d.entries with
    | none => pure ([], d.status)
    | some cipherEntries =>
      -- Get DirIV (stays zero if DirIV if off)
      if fs.args.DirIV then do
        -- Read the DirIV once and use it for all later name decryptions
        let cDirAbsPath := fs.Join fs.args.Cipherdir cDirName
        let iv ← fs.call (.ReadDirIV cDirAbsPath)
        if iv.err.isSome then pure ([], fuse.ToStatus iv.err)
        else pure (fs.decryptEntries dirName iv.iv cipherEntries, d.status)
      else
        pure (fs.decryptEntries dirName (List.replicate DIRIV_LEN 0) cipherEntries, d.status)

/-- The method `Open`. -/
def FS.Open (fs : FS) (path : Bytes) (flags : Nat) : M (Option File × Status) :=
  if fs.IsFiltered path then pure (none, fuse.EPERM)
  else do
    let iflags := (mangleOpenFlags flags).1
    let writeOnly := (mangleOpenFlags flags).2
    let p ← fs.getBackingPath path
    if p.2.isSome then pure (none, fuse.ToStatus p.2)
    else do
      let f ← fs.call (.osOpenFile p.1 iflags 0o666)
      if f.err.isSome then pure (none, fuse.ToStatus f.err)
      else pure (some ⟨f.fd, writeOnly⟩, fuse.OK)

/-- The method `Create`. -/
def FS.Create (fs : FS) (path : Bytes) (flags mode : Nat) : M (Option File × Status) :=
  if fs.IsFiltered path then pure (none, fuse.EPERM)
  else do
    let iflags := (mangleOpenFlags flags).1
    let writeOnly := (mangleOpenFlags flags).2
    let p ← fs.getBackingPath path
    if p.2.isSome then pure (none, fuse.ToStatus p.2)
    else do
      let f ← fs.call (.osOpenFile p.1 (iflags ||| O_CREATE) mode)
      if f.err.isSome then pure (none, fuse.ToStatus f.err)
      else pure (some ⟨f.fd, writeOnly⟩, fuse.OK)

/-- The method `Chmod`. -/
def FS.Chmod (fs : FS) (path : Bytes) (mode : Nat) : M Status :=
  if fs.IsFiltered path then pure fuse.EPERM
  else do
    let r ← fs.call (.encryptPath path)
    if r.err.isSome then pure (fuse.ToStatus r.err)
    else do
      let c ← fs.call (.fsChmod r.str mode)
      pure c.status

/-- The method `Chown`. -/
def FS.Chown (fs : FS) (path : Bytes) (uid gid : Nat) : M Status :=
  if fs.IsFiltered path then pure fuse.EPERM
  else do
    let r ← fs.call (.encryptPath path)
    if r.err.isSome then pure (fuse.ToStatus r.err)
    else do
      let c ← fs.call (.fsChown r.str uid gid)
      pure c.status

/-- The method `Mknod`. -/
def FS.Mknod (fs : FS) (path : Bytes) (mode dev : Nat) : M Status :=
  if fs.IsFiltered path then pure fuse.EPERM
  else do
    let r ← fs.call (.encryptPath path)
    if r.err.isSome then pure (fuse.ToStatus r.err)
    else do
      let c ← fs.call (.fsMknod r.str mode dev)
      pure c.status

/-- The method `Truncate`. -/
def FS.Truncate (_fs : FS) (_path : Bytes) (_offset : Nat) : M Status :=
  pure fuse.ENOSYS

/-- The method `Utimens`. -/
def FS.Utimens (fs : FS) (path : Bytes) (Atime Mtime : Option Nat) : M Status :=
  if fs.IsFiltered path then pure fuse.EPERM
  else do
    let r ← fs.call (.encryptPath path)
    if r.err.isSome then pure (fuse.ToStatus r.err)
    else do
      let c ← fs.call (.fsUtimens r.str Atime Mtime)
      pure c.status

/-- The method `Mkdir`. -/
def FS.Mkdir (fs : FS) (relPath : Bytes) (mode : Nat) : M Status :=
  if fs.IsFiltered relPath then pure fuse.EPERM
  else do
    let p ← fs.getBackingPath relPath
    if p.2.isSome then pure (fuse.ToStatus p.2)
    else do
      let encPath := p.1
      -- The new directory may take the place of an older one that is still in the cache
      let _ ← fs.call .clearDirIVCache
      -- Create directory
      let m ← fs.call (.osMkdir encPath mode)
      if m.err.isSome then pure (fuse.ToStatus m.err)
      else do
        -- Create gocryptfs.diriv inside
        let w ← fs.call (.WriteDirIV encPath)
        if w.err.isSome then do
          -- This should not happen
          let _ ← fs.call (.syscallRmdir encPath)
          pure (fuse.ToStatus w.err)
        else pure fuse.OK

/-- The method `Unlink`. -/
def FS.Unlink (fs : FS) (path : Bytes) : M Status :=
  if fs.IsFiltered path then pure fuse.EPERM
  else do
    let p ← fs.getBackingPath path
    if p.2.isSome then pure (fuse.ToStatus p.2)
    else do
      let u ← fs.call (.syscallUnlink p.1)
      pure (fuse.ToStatus u.err)

/-- The method `Rmdir`. -/
def FS.Rmdir (fs : FS) (name : Bytes) : M Status := do
  let p ← fs.getBackingPath name
  if p.2.isSome then pure (fuse.ToStatus p.2)
  else do
    let encPath := p.1
    -- If the directory is not empty besides gocryptfs.diriv, do not even
    -- attempt the dance around gocryptfs.diriv.
    let o ← fs.call (.osOpen encPath)
    if o.err.isSome then pure (fuse.ToStatus o.err)
    else do
      let fd := o.fd
      let l ← fs.call (.Readdirnames fd 10)
      if l.err.isSome then do
        let _ ← fs.call (.fdClose fd)
        pure (fuse.ToStatus l.err)
      else if l.names.length > 1 then do
        let _ ← fs.call (.fdClose fd)
        pure (fuse.ToStatus (some (.Errno syscall.ENOTEMPTY)))
      else do
        -- Move "gocryptfs.diriv" to the parent dir under name
        -- "gocryptfs.diriv.rmdir.INODENUMBER"
        let st ← fs.call (.Fstat fd)
        if st.err.isSome then do
          let _ ← fs.call (.fdClose fd)
          pure (fuse.ToStatus st.err)
        else do
          let dirivPath := fs.Join encPath DIRIV_FILENAME
          let parentDir := fs.Dir encPath
          let tmpName := ascii "gocryptfs.diriv.rmdir." ++ ascii (toString st.ino)
          let tmpDirivPath := fs.Join parentDir tmpName
          let rn ← fs.call (.osRename dirivPath tmpDirivPath)
          if rn.err.isSome then do
            let _ ← fs.call (.fdClose fd)
            pure (fuse.ToStatus rn.err)
          else do
            -- Actual Rmdir
            let rm ← fs.call (.syscallRmdir encPath)
            if rm.err.isSome then do
              -- This can happen if another file in the directory was created in the
              -- meantime, undo the rename
              let _ ← fs.call (.osRename tmpDirivPath dirivPath)
              let _ ← fs.call (.fdClose fd)
              pure (fuse.ToStatus rm.err)
            else do
              -- Delete "gocryptfs.diriv.rmdir.INODENUMBER"
              let _ ← fs.call (.syscallUnlink tmpDirivPath)
              -- The now-deleted directory may have been in the DirIV cache. Clear it.
              let _ ← fs.call .clearDirIVCache
              let _ ← fs.call (.fdClose fd)
              pure fuse.OK

/-- The pure part of `Symlink` with DirIV on: the link content
`base64.URLEncoding.EncodeToString(EncryptBlock([]byte(target), 0, nil))`;
`nonce` is the value the nonce generator returns to `EncryptBlock`. -/
def FS.encodeLinkTarget (fs : FS) (nonce target : Bytes) : Except Panic Bytes :=
  -- Since gocryptfs v0.5 symlinks are encrypted like file contents (GCM)
  match EncryptBlock fs.CryptFS nonce target 0 [] with
  | .error p => .error p
  | .ok cBinTarget => .ok (EncodeToString cBinTarget)

/-- The method `Symlink`; `nonce` is the value the nonce generator returns to
`EncryptBlock`. -/
def FS.Symlink (fs : FS) (nonce : Bytes) (target linkName : Bytes) : M (Except Panic Status) :=
  if fs.IsFiltered linkName then pure (.ok fuse.EPERM)
  else do
    let p ← fs.getBackingPath linkName
    if p.2.isSome then pure (.ok (fuse.ToStatus p.2))
    else do
      let cPath := p.1
      -- Old filesystem: symlinks are encrypted like paths (CBC)
      if !fs.args.DirIV then do
        let e ← fs.call (.encryptPath target)
        if e.err.isSome then pure (.ok (fuse.ToStatus e.err))
        else do
          let s ← fs.call (.osSymlink e.str cPath)
          pure (.ok (fuse.ToStatus s.err))
      else
        match fs.encodeLinkTarget nonce target with
        | .error p => pure (.error p)
        | .ok cTarget => do
          let s ← fs.call (.osSymlink cTarget cPath)
          pure (.ok (fuse.ToStatus s.err))

/-- The method `Rename`. -/
def FS.Rename (fs : FS) (oldPath newPath : Bytes) : M Status :=
  if fs.IsFiltered newPath then pure fuse.EPERM
  else do
    let o ← fs.getBackingPath oldPath
    if o.2.isSome then pure (fuse.ToStatus o.2)
    else do
      let n ← fs.getBackingPath newPath
      if n.2.isSome then pure (fuse.ToStatus n.2)
      else do
        -- The Rename may cause a directory to take the place of another directory.
        -- That directory may still be in the DirIV cache, clear it.
        let _ ← fs.call .clearDirIVCache
        let r ← fs.call (.fsRename o.1 n.1)
        pure r.status

/-- The method `Link`. -/
def FS.Link (fs : FS) (oldPath newPath : Bytes) : M Status :=
  if fs.IsFiltered newPath then pure fuse.EPERM
  else do
    let o ← fs.getBackingPath oldPath
    if o.2.isSome then pure (fuse.ToStatus o.2)
    else do
      let n ← fs.getBackingPath newPath
      if n.2.isSome then pure (fuse.ToStatus n.2)
      else do
        let l ← fs.call (.osLink o.1 n.1)
        pure (fuse.ToStatus l.err)

/-- The method `Access`. -/
def FS.Access (fs : FS) (path : Bytes) (mode : Nat) : M Status :=
  if fs.IsFiltered path then pure fuse.EPERM
  else do
    let p ← fs.getBackingPath path
    if p.2.isSome then pure (fuse.ToStatus p.2)
    else do
      let a ← fs.call (.syscallAccess p.1 mode)
      pure (fuse.ToStatus a.err)

/-- The method `GetXAttr`. -/
def FS.GetXAttr (_fs : FS) (_name _attr : Bytes) : M (Bytes × Status) :=
  pure ([], fuse.ENOSYS)

/-- The method `SetXAttr`. -/
def FS.SetXAttr (_fs : FS) (_name _attr _data : Bytes) (_flags : Nat) : M Status :=
  pure fuse.ENOSYS

/-- The method `ListXAttr`. -/
def FS.ListXAttr (_fs : FS) (_name : Bytes) : M (List Bytes × Status) :=
  pure ([], fuse.ENOSYS)

/-- The method `RemoveXAttr`. -/
def FS.RemoveXAttr (_fs : FS) (_name _attr : Bytes) : M Status :=
  pure fuse.ENOSYS

/-- A world that answers every call with success: `encryptPath` returns the
path with `enc-` in front, every other call returns empty results. -/
def quietWorld : List Effect → Effect → Reply
  | _, .encryptPath p => { str := ascii "enc-" ++ p }
  | _, _ => {}

/-- A file system over `toyBE` with DirIV on, in which exactly the name
`gocryptfs.conf` is filtered, on top of `quietWorld`. -/
def toyFS : FS where
  CryptFS := toyBE
  IsFiltered := fun p => p == ConfDefaultName
  CipherSizeToPlainSize := fun n => n
  DecryptName := fun cName _ => some cName
  args := ⟨ascii "/cipher", true⟩
  world := quietWorld
  Join := fun a b => a ++ ascii "/" ++ b
  Dir := fun p => p

end Gocryptfs

/-! # Theorems -/

namespace Gocryptfs

/-! ## Facts about the helpers -/

theorem be64_length (v : Nat) : (be64 v).length = 8 := rfl

theorem be64_mod (v : Nat) : be64 (v % 2 ^ 64) = be64 v := by
  simp only [be64, Nat.reducePow]
  congr 1 <;> [skip; congr 1 <;> [skip; congr 1 <;> [skip; congr 1 <;> [skip;
    congr 1 <;> [skip; congr 1 <;> [skip; congr 1 <;> [skip; congr 1]]]]]]] <;> omega

theorem be64_injective (v w : Nat) (hv : v < 2 ^ 64) (hw : w < 2 ^ 64)
    (h : be64 v = be64 w) : v = w := by
  simp only [be64, Nat.reducePow, List.cons.injEq, and_true] at h hv hw
  omega

theorem aData_decrypt_eq (blockNo : Nat) (fileID : Bytes) :
    PutUint64 (List.replicate 8 0 ++ fileID) blockNo = aDataSpec blockNo fileID := by
  simp [PutUint64, aDataSpec, be64]

theorem aData_encrypt_eq (blockNo : Nat) (fileID : Bytes) :
    PutUint64 (List.replicate 8 0) blockNo ++ fileID = aDataSpec blockNo fileID := by
  simp [PutUint64, aDataSpec, be64]

theorem aDataSpec_mod (blockNo : Nat) (fileID : Bytes) :
    aDataSpec (blockNo % 2 ^ 64) fileID = aDataSpec blockNo fileID := by
  simp only [aDataSpec, be64_mod]

theorem aDataSpec_injective (b b' : Nat) (f f' : Bytes) (hb : b < 2 ^ 64) (hb' : b' < 2 ^ 64)
    (h : aDataSpec b f = aDataSpec b' f') : b = b' ∧ f = f' := by
  unfold aDataSpec at h
  have h2 := List.append_inj h (by simp [be64_length])
  exact ⟨be64_injective b b' hb hb' h2.1, h2.2⟩

theorem goCopy_length (dst src : Bytes) : (goCopy dst src).length = dst.length := by
  simp only [goCopy, List.length_append, List.length_take, List.length_drop]
  omega

theorem goCopy_take (dst src : Bytes) (h : src.length ≤ dst.length) :
    (goCopy dst src).take src.length = src := by
  simp only [goCopy]
  rw [List.take_of_length_le h, List.take_left]

theorem bPool_Get_length (p : bPool) : p.Get.length = p.sliceLen := by
  simp [bPool.Get]

/-! ## Facts about `New` -/

theorem New_ok {cc : CryptoCore} {plainBS : Nat} {forceDecode : Bool} {junk : Nat → Nat}
    {be : ContentEnc} (h : New cc plainBS forceDecode junk = .ok be) :
    be = newContentEnc cc plainBS forceDecode junk ∧ 0 < plainBS ∧ plainBS ≤ MAX_KERNEL_WRITE := by
  unfold New at h
  split_ifs at h with h0 h1
  · injection h with h
    refine ⟨h.symm, Nat.pos_of_ne_zero h0, ?_⟩
    have hdvd : plainBS ∣ MAX_KERNEL_WRITE := Nat.dvd_of_mod_eq_zero (by simpa using h1)
    exact Nat.le_of_dvd (by decide) hdvd

theorem New_cipherBS {cc : CryptoCore} {plainBS : Nat} {forceDecode : Bool} {junk : Nat → Nat}
    {be : ContentEnc} (h : New cc plainBS forceDecode junk = .ok be) :
    be.cipherBS = plainBS + cc.IVLen + AuthTagLen := by
  obtain ⟨rfl, _, hle⟩ := New_ok h
  have := cc.IVLen_lt
  simp only [newContentEnc, AuthTagLen, MAX_KERNEL_WRITE, Nat.reducePow, Nat.reduceMul] at *
  omega

/-! ## Facts about single blocks -/

theorem not_all_zero_of_mem {l : Bytes} {n : Nat} (h : ∃ x ∈ l, x ≠ 0) :
    l ≠ List.replicate n 0 := by
  rintro heq
  obtain ⟨x, hx, hx0⟩ := h
  rw [heq] at hx
  exact hx0 (List.eq_of_mem_replicate hx)

/-- What `doEncryptBlock` does on a non-empty plaintext with a nonce of the
configured length: one `Seal` call, then the length assertion. -/
theorem doEncryptBlockLog_nonempty {cc : CryptoCore} {plainBS : Nat} {forceDecode : Bool}
    {junk : Nat → Nat} {be : ContentEnc} (hNew : New cc plainBS forceDecode junk = .ok be)
    (P : Bytes) (b : Nat) (f nonce : Bytes) (hP : P ≠ []) (hLen : nonce.length = cc.IVLen) :
    doEncryptBlockLog be P b f nonce =
      (.ok (nonce ++ cc.AEADCipher.sealTo nonce P (aDataSpec b f)),
       [AEADCall.Seal nonce nonce P (aDataSpec b f)]) := by
  have hc := New_cipherBS hNew
  obtain ⟨hbe, hpos, hle⟩ := New_ok hNew
  have hcc : be.cryptoCore = cc := by rw [hbe]; rfl
  have hpl : be.plainBS = plainBS := by rw [hbe]; rfl
  have hpool : be.cBlockPool.Get.length = be.cipherBS := by
    rw [bPool_Get_length, hbe]; rfl
  have hIV := cc.IVLen_lt
  have hP0 : P.length ≠ 0 := by simpa using hP
  have hle2 : nonce.length ≤ be.cBlockPool.Get.length := by rw [hpool, hc, hLen]; omega
  have hov : toInt64 ((be.cipherBS + 2 ^ 64 - be.plainBS) % 2 ^ 64)
      = ((cc.IVLen + AuthTagLen : Nat) : Int) := by
    rw [hc, hpl]
    simp only [toInt64, AuthTagLen, MAX_KERNEL_WRITE, Nat.reducePow, Nat.reduceMul] at *
    split_ifs <;> omega
  unfold doEncryptBlockLog
  rw [if_neg hP0, hcc, if_neg (by simpa using hLen)]
  simp only [goCopy_length, aData_encrypt_eq]
  rw [if_neg (by omega), goCopy_take _ _ hle2, hov]
  simp only [AEAD.Seal, List.length_append, hLen]
  have hT := cc.AEADCipher.sealTo_length nonce P (aDataSpec b f)
  rw [if_neg]
  push_cast
  omega

/-- What `DecryptBlock` does on a block that starts with a nonce of the
configured length that is not all zeros: one `Open` call on the rest. -/
theorem DecryptBlockLog_nonce {cc : CryptoCore} {plainBS : Nat} {forceDecode : Bool}
    {junk : Nat → Nat} {be : ContentEnc} (hNew : New cc plainBS forceDecode junk = .ok be)
    (nonce body : Bytes) (b : Nat) (f : Bytes) (hLen : nonce.length = cc.IVLen)
    (hNZ : ∃ x ∈ nonce, x ≠ 0) :
    DecryptBlockLog be (nonce ++ body) b f =
      ((match (cc.AEADCipher.openTo nonce body (aDataSpec b f)).2 with
        | some err =>
          if forceDecode && err == Err.ErrAuth then
            ((cc.AEADCipher.openTo nonce body (aDataSpec b f)).1, some err)
          else ([], some err)
        | none => ((cc.AEADCipher.openTo nonce body (aDataSpec b f)).1, none)),
       [AEADCall.Open [] nonce body (aDataSpec b f)]) := by
  obtain ⟨hbe, hpos, hle⟩ := New_ok hNew
  have hcc : be.cryptoCore = cc := by rw [hbe]; rfl
  have hfd : be.forceDecode = forceDecode := by rw [hbe]; rfl
  have hzb : be.allZeroBlock = List.replicate be.cipherBS 0 := by rw [hbe]; rfl
  have hzn : be.allZeroNonce = List.replicate cc.IVLen 0 := by rw [hbe]; rfl
  have hne : nonce ≠ [] := by
    obtain ⟨x, hx, _⟩ := hNZ
    exact List.ne_nil_of_mem hx
  have h0 : (nonce ++ body).length ≠ 0 := by
    simpa using fun h : nonce = [] => absurd h hne
  have hNZ2 : ∃ x ∈ nonce ++ body, x ≠ 0 := by
    obtain ⟨x, hx, hx0⟩ := hNZ
    exact ⟨x, List.mem_append_left _ hx, hx0⟩
  have htake : (nonce ++ body).take cc.IVLen = nonce := by rw [← hLen, List.take_left]
  have hdrop : (nonce ++ body).drop cc.IVLen = body := by rw [← hLen, List.drop_left]
  unfold DecryptBlockLog
  rw [if_neg h0, hzb, if_neg (not_all_zero_of_mem hNZ2), hcc,
    if_neg (by simp [hLen])]
  simp only [htake, hdrop, hzn, if_neg (not_all_zero_of_mem hNZ), aData_decrypt_eq,
    List.take_zero, AEAD.Open, List.nil_append, hfd]
  cases (cc.AEADCipher.openTo nonce body (aDataSpec b f)).2 <;> simp
  split_ifs <;> rfl

theorem doEncryptBlockLog_nil (be : ContentEnc) (b : Nat) (f nonce : Bytes) :
    doEncryptBlockLog be [] b f nonce = (.ok [], []) := by
  simp [doEncryptBlockLog]

theorem DecryptBlockLog_nil (be : ContentEnc) (b : Nat) (f : Bytes) :
    DecryptBlockLog be [] b f = (([], none), []) := by
  simp [DecryptBlockLog]

theorem doEncryptBlockLog_wrong_nonce (be : ContentEnc) (P : Bytes) (b : Nat) (f nonce : Bytes)
    (hP : P ≠ []) (hLen : nonce.length ≠ be.cryptoCore.IVLen) :
    doEncryptBlockLog be P b f nonce = (.error .wrongNonceLength, []) := by
  have hP0 : P.length ≠ 0 := by simpa using hP
  unfold doEncryptBlockLog
  rw [if_neg hP0, if_pos hLen]

theorem doEncryptBlockLog_calls (be : ContentEnc) (P : Bytes) (b : Nat) (f nonce : Bytes) :
    ∀ call ∈ (doEncryptBlockLog be P b f nonce).2, call.aData = aDataSpec b f := by
  unfold doEncryptBlockLog
  intro call hcall
  simp only [aData_encrypt_eq] at hcall
  repeat' split at hcall
  all_goals
    first
    | exact absurd hcall (List.not_mem_nil _)
    | exact (List.mem_singleton.mp hcall) ▸ rfl

theorem DecryptBlockLog_calls (be : ContentEnc) (c : Bytes) (b : Nat) (f : Bytes) :
    ∀ call ∈ (DecryptBlockLog be c b f).2, call.aData = aDataSpec b f := by
  unfold DecryptBlockLog
  intro call hcall
  simp only [aData_decrypt_eq] at hcall
  repeat' split at hcall
  all_goals
    first
    | exact absurd hcall (List.not_mem_nil _)
    | exact (List.mem_singleton.mp hcall) ▸ rfl

/-! ## Facts about merging -/

theorem goCopy_same_length (dst src : Bytes) (h : dst.length = src.length) :
    goCopy dst src = src := by
  simp only [goCopy]
  rw [List.take_of_length_le (by omega), List.drop_of_length_le (by omega), List.append_nil]

theorem goCopy_zeros (n : Nat) (old : Bytes) (h : old.length ≤ n) :
    goCopy (List.replicate n 0) old = old ++ List.replicate (n - old.length) 0 := by
  simp only [goCopy, List.length_replicate, List.drop_replicate]
  rw [List.take_of_length_le h]

theorem getD_append_zeros (old : Bytes) (k i : Nat) :
    (old ++ List.replicate k 0).getD i 0 = if i < old.length then old.getD i 0 else 0 := by
  split_ifs with h
  · exact List.getD_append _ _ _ _ h
  · rw [List.getD_append_right _ _ _ _ (by omega)]
    simp [List.getD_eq_getElem?_getD, List.getElem?_replicate]
    split_ifs <;> rfl

theorem getD_splice (A new : Bytes) (off i : Nat) (h : off + new.length ≤ A.length) :
    (A.take off ++ new ++ A.drop (off + new.length)).getD i 0 =
      if off ≤ i ∧ i < off + new.length then new.getD (i - off) 0 else A.getD i 0 := by
  have hlt : (A.take off).length = off := by rw [List.length_take]; omega
  by_cases h1 : i < off
  · rw [if_neg (by omega), List.append_assoc, List.getD_append _ _ _ _ (by omega)]
    simp only [List.getD_eq_getElem?_getD, List.getElem?_take, if_pos h1]
  · by_cases h2 : i < off + new.length
    · rw [if_pos ⟨by omega, h2⟩, List.append_assoc, List.getD_append_right _ _ _ _ (by omega),
        List.getD_append _ _ _ _ (by omega), hlt]
    · rw [if_neg (by omega), List.getD_append_right _ _ _ _
        (by rw [List.length_append]; omega)]
      simp only [List.getD_eq_getElem?_getD, List.getElem?_drop, List.length_append, hlt]
      congr 2
      omega

/-! ## Facts about `DecryptBlocks` -/

theorem DecryptBlock_mod (be : ContentEnc) (c : Bytes) (b : Nat) (f : Bytes) :
    DecryptBlock be c (b % 2 ^ 64) f = DecryptBlock be c b f := by
  simp only [DecryptBlock, DecryptBlockLog, PutUint64, be64_mod]

theorem DecryptBlocksLoop_nil (be : ContentEnc) (f : Bytes) (fuel n : Nat) (pBuf : Bytes)
    (err : Option Err) : DecryptBlocksLoop be f fuel [] n pBuf err = some (pBuf, err) := by
  cases fuel <;> simp [DecryptBlocksLoop]

theorem DecryptBlocksLoop_step (be : ContentEnc) (f : Bytes) (fuel n : Nat)
    (cBuf pBuf : Bytes) (err : Option Err) (h : cBuf ≠ []) :
    DecryptBlocksLoop be f (fuel + 1) cBuf n pBuf err =
      if (DecryptBlock be (cBuf.take be.cipherBS) n f).2.isSome &&
          !(be.forceDecode && (DecryptBlock be (cBuf.take be.cipherBS) n f).2
            == some Err.ErrAuth) then
        some (pBuf, (DecryptBlock be (cBuf.take be.cipherBS) n f).2)
      else
        DecryptBlocksLoop be f fuel (cBuf.drop be.cipherBS) ((n + 1) % 2 ^ 64)
          (pBuf ++ (DecryptBlock be (cBuf.take be.cipherBS) n f).1)
          (DecryptBlock be (cBuf.take be.cipherBS) n f).2 := by
  have hl : cBuf.length > 0 := List.length_pos.mpr h
  rw [DecryptBlocksLoop]
  simp only [hl, if_true]

theorem DecryptBlocksLoop_mod (be : ContentEnc) (f : Bytes) (fuel n : Nat)
    (cBuf pBuf : Bytes) (err : Option Err) :
    DecryptBlocksLoop be f fuel cBuf (n % 2 ^ 64) pBuf err
      = DecryptBlocksLoop be f fuel cBuf n pBuf err := by
  by_cases h : cBuf = []
  · subst h
    rw [DecryptBlocksLoop_nil, DecryptBlocksLoop_nil]
  · cases fuel with
    | zero =>
      have hl : cBuf.length > 0 := List.length_pos.mpr h
      rw [DecryptBlocksLoop, DecryptBlocksLoop]
    | succ fuel =>
      have h3 : (n % 2 ^ 64 + 1) % 2 ^ 64 = (n + 1) % 2 ^ 64 := by
        simp only [Nat.reducePow]; omega
      rw [DecryptBlocksLoop_step _ _ _ _ _ _ _ h, DecryptBlocksLoop_step _ _ _ _ _ _ _ h,
        DecryptBlock_mod, h3]

theorem lt_numChunks_iff (size len k : Nat) (hsize : 0 < size) :
    k < numChunks size len ↔ k * size < len := by
  unfold numChunks
  rw [Nat.lt_iff_add_one_le, Nat.le_div_iff_mul_le hsize, Nat.add_mul]
  omega

theorem chunkAt_length (size : Nat) (ct : Bytes) (i : Nat) (hsize : 0 < size)
    (h : i + 1 < numChunks size ct.length) : (chunkAt size ct i).length = size := by
  rw [lt_numChunks_iff _ _ _ hsize, Nat.add_mul] at h
  simp only [chunkAt, List.length_take, List.length_drop]
  omega

theorem chunkAt_ne_nil (size : Nat) (ct : Bytes) (i : Nat) (hsize : 0 < size)
    (h : i < numChunks size ct.length) : chunkAt size ct i ≠ [] := by
  rw [lt_numChunks_iff _ _ _ hsize] at h
  intro hnil
  have := congrArg List.length hnil
  simp only [chunkAt, List.length_take, List.length_drop, List.length_nil] at this
  omega

theorem chunks_flatten_from (size : Nat) (ct : Bytes) (hsize : 0 < size) :
    ∀ d k, numChunks size ct.length - k = d →
      ((List.range' k d).map (chunkAt size ct)).flatten = ct.drop (k * size) := by
  intro d
  induction d with
  | zero =>
    intro k hk
    have hnot : ¬ k < numChunks size ct.length := by omega
    rw [lt_numChunks_iff _ _ _ hsize] at hnot
    rw [List.drop_eq_nil_of_le (by omega)]
    rfl
  | succ d ih =>
    intro k hk
    rw [List.range'_succ, List.map_cons, List.flatten_cons, ih (k + 1) (by omega)]
    have h2 : (k + 1) * size = k * size + size := by rw [Nat.add_mul]; omega
    rw [h2, ← List.drop_drop]
    exact List.take_append_drop _ _

/-- The loop of `DecryptBlocks` when every remaining chunk decrypts without error. -/
theorem DecryptBlocksLoop_all_ok (be : ContentEnc) (f ct : Bytes) (n : Nat)
    (hsize : 0 < be.cipherBS) :
    ∀ fuel k pBuf, ct.length ≤ k * be.cipherBS + fuel →
      (∀ i, k ≤ i → i < numChunks be.cipherBS ct.length →
        (DecryptBlock be (chunkAt be.cipherBS ct i) (n + i) f).2 = none) →
      DecryptBlocksLoop be f fuel (ct.drop (k * be.cipherBS)) ((n + k) % 2 ^ 64) pBuf none =
        some (pBuf ++ ((List.range' k (numChunks be.cipherBS ct.length - k)).map
          (fun i => (DecryptBlock be (chunkAt be.cipherBS ct i) (n + i) f).1)).flatten, none) := by
  intro fuel
  induction fuel with
  | zero =>
    intro k pBuf hfuel _
    have hnot : ¬ k < numChunks be.cipherBS ct.length := by
      rw [lt_numChunks_iff _ _ _ hsize]; omega
    rw [List.drop_eq_nil_of_le (by omega), DecryptBlocksLoop_nil,
      show numChunks be.cipherBS ct.length - k = 0 by omega]
    simp
  | succ fuel ih =>
    intro k pBuf hfuel hok
    by_cases hk : k < numChunks be.cipherBS ct.length
    · have hk2 := (lt_numChunks_iff _ _ _ hsize).mp hk
      have hne : ct.drop (k * be.cipherBS) ≠ [] := by
        rw [Ne, List.drop_eq_nil_iff]; omega
      have hres := hok k (Nat.le_refl k) hk
      have hchunk : (ct.drop (k * be.cipherBS)).take be.cipherBS = chunkAt be.cipherBS ct k := rfl
      rw [DecryptBlocksLoop_step _ _ _ _ _ _ _ hne, hchunk, DecryptBlock_mod, hres]
      simp only [Option.isSome_none, Bool.false_and, Bool.false_eq_true, if_false]
      have h2 : (k + 1) * be.cipherBS = k * be.cipherBS + be.cipherBS := by
        rw [Nat.add_mul]; omega
      have h3 : ((n + k) % 2 ^ 64 + 1) % 2 ^ 64 = (n + (k + 1)) % 2 ^ 64 := by
        simp only [Nat.reducePow]; omega
      rw [List.drop_drop, ← h2, h3, ih (k + 1) _ (by omega)
        (fun i hi him => hok i (by omega) him),
        show numChunks be.cipherBS ct.length - k
          = (numChunks be.cipherBS ct.length - (k + 1)) + 1 by omega,
        List.range'_succ, List.map_cons, List.flatten_cons, List.append_assoc]
    · have hk2 : ¬ k * be.cipherBS < ct.length := by
        rwa [lt_numChunks_iff _ _ _ hsize] at hk
      rw [List.drop_eq_nil_of_le (by omega), DecryptBlocksLoop_nil,
        show numChunks be.cipherBS ct.length - k = 0 by omega]
      simp

/-- The loop of `DecryptBlocks` (forceDecode off) when chunk `j` is the first to fail. -/
theorem DecryptBlocksLoop_first_error (be : ContentEnc) (f ct : Bytes) (n : Nat)
    (hsize : 0 < be.cipherBS) (hfd : be.forceDecode = false) (j : Nat)
    (hj : j < numChunks be.cipherBS ct.length)
    (hfail : (DecryptBlock be (chunkAt be.cipherBS ct j) (n + j) f).2 ≠ none) :
    ∀ fuel k pBuf err, ct.length ≤ k * be.cipherBS + fuel → k ≤ j →
      (∀ i, k ≤ i → i < j →
        (DecryptBlock be (chunkAt be.cipherBS ct i) (n + i) f).2 = none) →
      DecryptBlocksLoop be f fuel (ct.drop (k * be.cipherBS)) ((n + k) % 2 ^ 64) pBuf err =
        some (pBuf ++ ((List.range' k (j - k)).map
          (fun i => (DecryptBlock be (chunkAt be.cipherBS ct i) (n + i) f).1)).flatten,
          (DecryptBlock be (chunkAt be.cipherBS ct j) (n + j) f).2) := by
  have hj2 := (lt_numChunks_iff _ _ _ hsize).mp hj
  intro fuel
  induction fuel with
  | zero =>
    intro k pBuf err hfuel hkj _
    have : k * be.cipherBS ≤ j * be.cipherBS := Nat.mul_le_mul_right _ hkj
    omega
  | succ fuel ih =>
    intro k pBuf err hfuel hkj hok
    have hkle : k * be.cipherBS ≤ j * be.cipherBS := Nat.mul_le_mul_right _ hkj
    have hne : ct.drop (k * be.cipherBS) ≠ [] := by
      rw [Ne, List.drop_eq_nil_iff]; omega
    have hchunk : (ct.drop (k * be.cipherBS)).take be.cipherBS = chunkAt be.cipherBS ct k := rfl
    rw [DecryptBlocksLoop_step _ _ _ _ _ _ _ hne, hchunk, DecryptBlock_mod, hfd]
    by_cases hkj2 : k = j
    · subst hkj2
      have hsome : (DecryptBlock be (chunkAt be.cipherBS ct k) (n + k) f).2.isSome = true :=
        Option.isSome_iff_ne_none.mpr hfail
      simp [hsome]
    · have hres := hok k (Nat.le_refl k) (by omega)
      rw [hres]
      simp only [Option.isSome_none, Bool.false_and, Bool.false_eq_true, if_false]
      have h2 : (k + 1) * be.cipherBS = k * be.cipherBS + be.cipherBS := by
        rw [Nat.add_mul]; omega
      have h3 : ((n + k) % 2 ^ 64 + 1) % 2 ^ 64 = (n + (k + 1)) % 2 ^ 64 := by
        simp only [Nat.reducePow]; omega
      rw [List.drop_drop, ← h2, h3, ih (k + 1) _ none (by omega) (by omega)
        (fun i hi hij => hok i (by omega) hij),
        show j - k = (j - (k + 1)) + 1 by omega,
        List.range'_succ, List.map_cons, List.flatten_cons, List.append_assoc]

/-! ## Facts about `EncryptBlocks` -/

theorem EncryptBlock_mod (be : ContentEnc) (nonce v : Bytes) (a b : Nat) (f : Bytes)
    (h : a % 2 ^ 64 = b % 2 ^ 64) :
    EncryptBlock be nonce v a f = EncryptBlock be nonce v b f := by
  have hbe : be64 a = be64 b := by rw [← be64_mod a, h, be64_mod]
  simp only [EncryptBlock, doEncryptBlock, doEncryptBlockLog, PutUint64, hbe]

theorem encryptEach_length (be : ContentEnc) (nonceOf : Nat → Bytes) (n : Nat) (f : Bytes) :
    ∀ (rest : List Bytes) (i : Nat) (cs : List Bytes),
      encryptEach be nonceOf n f i rest = some cs → cs.length = rest.length := by
  intro rest
  induction rest with
  | nil =>
    intro i cs h
    simp only [encryptEach, Option.some.injEq] at h
    rw [← h]
  | cons v rest ih =>
    intro i cs h
    simp only [encryptEach] at h
    split at h
    · cases h
    · cases hrec : encryptEach be nonceOf n f (i + 1) rest with
      | none => rw [hrec] at h; cases h
      | some tail =>
        rw [hrec] at h
        simp only [Option.map_some', Option.some.injEq] at h
        rw [← h, List.length_cons, List.length_cons, ih (i + 1) tail hrec]

theorem encryptEach_append (be : ContentEnc) (nonceOf : Nat → Bytes) (n : Nat) (f : Bytes) :
    ∀ (xs ys : List Bytes) (i : Nat),
      encryptEach be nonceOf n f i (xs ++ ys) =
        (encryptEach be nonceOf n f i xs).bind (fun a =>
          (encryptEach be nonceOf n f (i + xs.length) ys).map (fun b => a ++ b)) := by
  intro xs
  induction xs with
  | nil =>
    intro ys i
    simp [encryptEach]
  | cons v xs ih =>
    intro ys i
    simp only [List.cons_append, encryptEach, List.length_cons, List.append_eq]
    split
    · rfl
    · rw [ih ys (i + 1), show i + 1 + xs.length = i + (xs.length + 1) by omega]
      cases encryptEach be nonceOf n f (i + 1) xs with
      | none => rfl
      | some a =>
        cases encryptEach be nonceOf n f (i + (xs.length + 1)) ys with
        | none => rfl
        | some b => rfl

theorem set_take_succ {α : Type} (out : List α) (i : Nat) (c : α) (h : i < out.length) :
    (out.set i c).take (i + 1) = out.take i ++ [c] := by
  rw [List.set_eq_take_append_cons_drop, if_pos h, List.take_append_eq_append_take,
    List.length_take, Nat.min_eq_left (Nat.le_of_lt h),
    List.take_of_length_le (by rw [List.length_take]; omega)]
  simp

theorem set_drop_succ {α : Type} (out : List α) (i r : Nat) (c : α) :
    (out.set i c).drop (i + 1 + r) = out.drop (i + 1 + r) := by
  rw [List.drop_set_of_lt _ _ (by omega)]

/-- The loop of `doEncryptBlocks` fills the slots `i, i + 1, ...` of `out` with the
per-block encryptions and leaves the other slots as they are. -/
theorem doEncryptBlocksLoop_eq (be : ContentEnc) (nonceOf slotNonce : Nat → Bytes)
    (n first low : Nat) (f : Bytes)
    (hnonce : ∀ j, slotNonce j = nonceOf (low + j))
    (hfirst : first % 2 ^ 64 = (n + low) % 2 ^ 64) :
    ∀ (rest : List Bytes) (i : Nat) (out : List Bytes), i + rest.length ≤ out.length →
      doEncryptBlocksLoop be slotNonce first f i rest out =
        (encryptEach be nonceOf n f (low + i) rest).map
          (fun cs => out.take i ++ cs ++ out.drop (i + rest.length)) := by
  intro rest
  induction rest with
  | nil =>
    intro i out _
    simp [doEncryptBlocksLoop, encryptEach]
  | cons v rest ih =>
    intro i out hlen
    rw [List.length_cons] at hlen
    have hblock : EncryptBlock be (slotNonce i) v ((first + i) % 2 ^ 64) f
        = EncryptBlock be (nonceOf (low + i)) v (n + (low + i)) f := by
      rw [hnonce]
      apply EncryptBlock_mod
      simp only [Nat.reducePow] at hfirst ⊢
      omega
    simp only [doEncryptBlocksLoop, encryptEach, hblock]
    cases hres : EncryptBlock be (nonceOf (low + i)) v (n + (low + i)) f with
    | error e => rfl
    | ok c =>
      simp only []
      rw [if_pos (by omega), ih (i + 1) (out.set i c) (by rw [List.length_set]; omega),
        show low + (i + 1) = low + i + 1 by omega]
      cases encryptEach be nonceOf n f (low + i + 1) rest with
      | none => rfl
      | some cs =>
        simp only [Option.map_some', Option.some.injEq, List.length_cons]
        rw [set_take_succ _ _ _ (by omega), set_drop_succ,
          show i + (rest.length + 1) = i + 1 + rest.length by omega]
        simp

/-- What one worker of `EncryptBlocks` does to the slice of ciphertext blocks: it
fills the slots `low .. high - 1` with the encryptions of the blocks at these
indices. -/
theorem encryptWorker_eq (be : ContentEnc) (nonceOf : Nat → Bytes) (blocks : List Bytes)
    (n : Nat) (f : Bytes) (ncpu groupSize i : Nat) (cts : List Bytes) (low high : Nat)
    (hb : groupBounds blocks.length ncpu groupSize i = (low, high))
    (hlen : cts.length = blocks.length) (hlh : low ≤ high) (hh : high ≤ blocks.length) :
    encryptWorker be nonceOf blocks n f ncpu groupSize i cts =
      (encryptEach be nonceOf n f low ((blocks.drop low).take (high - low))).map
        (fun cs => cts.take low ++ cs ++ cts.drop high) := by
  have h1 : goSlice blocks low high = .ok ((blocks.drop low).take (high - low)) := by
    rw [goSlice, if_pos ⟨hlh, hh⟩]
  have h2 : goSlice cts low high = .ok ((cts.drop low).take (high - low)) := by
    rw [goSlice, if_pos ⟨hlh, by omega⟩]
  have hl1 : ((blocks.drop low).take (high - low)).length = high - low := by
    rw [List.length_take, List.length_drop]; omega
  have hl2 : ((cts.drop low).take (high - low)).length = high - low := by
    rw [List.length_take, List.length_drop]; omega
  have hloop := doEncryptBlocksLoop_eq be nonceOf (fun j => nonceOf (low + j)) n
    ((n + low) % 2 ^ 64) low f (fun _ => rfl) (Nat.mod_mod _ _)
    ((blocks.drop low).take (high - low)) 0 ((cts.drop low).take (high - low))
    (by rw [hl1, hl2]; omega)
  simp only [encryptWorker, hb, h1, h2, doEncryptBlocks, hloop, Nat.add_zero, List.take_zero,
    List.nil_append, Nat.zero_add]
  rw [List.drop_of_length_le (by rw [hl1, hl2])]
  cases encryptEach be nonceOf n f low ((blocks.drop low).take (high - low)) with
  | none => rfl
  | some cs => simp

theorem perm_range_two (sched : List Nat) (h : sched.Perm (List.range 2)) :
    sched = [0, 1] ∨ sched = [1, 0] := by
  have hlen := h.length_eq
  have h0 : 0 ∈ sched := h.mem_iff.mpr (by decide)
  have h1 : 1 ∈ sched := h.mem_iff.mpr (by decide)
  match sched, hlen, h0, h1 with
  | [a, b], _, h0, h1 =>
    simp only [List.mem_cons, List.mem_singleton, List.not_mem_nil, or_false] at h0 h1
    rcases h0 with rfl | rfl <;> rcases h1 with h1 | h1 <;> simp_all

theorem workers_one (be : ContentEnc) (nonceOf : Nat → Bytes) (blocks : List Bytes)
    (n : Nat) (f : Bytes) :
    [0].foldlM
        (fun cts i => encryptWorker be nonceOf blocks n f 1 (blocks.length / 1) i cts)
        (List.replicate blocks.length ([] : Bytes))
      = encryptEach be nonceOf n f 0 blocks := by
  have hw := encryptWorker_eq be nonceOf blocks n f 1 (blocks.length / 1) 0
    (List.replicate blocks.length []) 0 blocks.length (by simp [groupBounds])
    (by simp) (Nat.zero_le _) (Nat.le_refl _)
  simp only [List.foldlM_cons, List.foldlM_nil, hw, List.drop_zero, Nat.sub_zero,
    List.take_length, List.take_zero, List.nil_append]
  rw [List.drop_of_length_le (by simp)]
  cases encryptEach be nonceOf n f 0 blocks with
  | none => rfl
  | some cs => simp

theorem workers_two (be : ContentEnc) (nonceOf : Nat → Bytes) (blocks : List Bytes)
    (n : Nat) (f : Bytes) (sched : List Nat) (hs : sched = [0, 1] ∨ sched = [1, 0]) :
    sched.foldlM
        (fun cts i => encryptWorker be nonceOf blocks n f 2 (blocks.length / 2) i cts)
        (List.replicate blocks.length ([] : Bytes))
      = encryptEach be nonceOf n f 0 blocks := by
  have hg : blocks.length / 2 ≤ blocks.length := Nat.div_le_self _ _
  have hb0 : groupBounds blocks.length 2 (blocks.length / 2) 0 = (0, blocks.length / 2) := by
    simp [groupBounds]
  have hb1 : groupBounds blocks.length 2 (blocks.length / 2) 1
      = (blocks.length / 2, blocks.length) := by
    simp [groupBounds]
  have hw0 := fun cts hlen => encryptWorker_eq be nonceOf blocks n f 2 (blocks.length / 2) 0
    cts 0 (blocks.length / 2) hb0 hlen (Nat.zero_le _) hg
  have hw1 := fun cts hlen => encryptWorker_eq be nonceOf blocks n f 2 (blocks.length / 2) 1
    cts (blocks.length / 2) blocks.length hb1 hlen hg (Nat.le_refl _)
  simp only [List.drop_zero, Nat.sub_zero, List.take_zero, List.nil_append] at hw0
  have htl : (blocks.drop (blocks.length / 2)).take (blocks.length - blocks.length / 2)
      = blocks.drop (blocks.length / 2) :=
    List.take_of_length_le (by rw [List.length_drop])
  rw [htl] at hw1
  have hsplit : encryptEach be nonceOf n f 0 blocks =
      (encryptEach be nonceOf n f 0 (blocks.take (blocks.length / 2))).bind (fun a =>
        (encryptEach be nonceOf n f (blocks.length / 2)
          (blocks.drop (blocks.length / 2))).map (fun b => a ++ b)) := by
    have h := encryptEach_append be nonceOf n f (blocks.take (blocks.length / 2))
      (blocks.drop (blocks.length / 2)) 0
    rw [List.take_append_drop, List.length_take, Nat.zero_add, Nat.min_eq_left hg] at h
    exact h
  rw [hsplit]
  have hrep : (List.replicate blocks.length ([] : Bytes)).length = blocks.length := by simp
  have hfold : ∀ (F : List Bytes → Nat → Option (List Bytes)) (init : List Bytes) (x y : Nat),
      [x, y].foldlM F init = (F init x).bind (fun c => F c y) := by
    intro F init x y
    simp only [List.foldlM_cons, List.foldlM_nil, Option.bind_eq_bind, Option.pure_def,
      Option.bind_some]
  have hlen0 : ∀ a : List Bytes, a.length = blocks.length / 2 →
      (a ++ (List.replicate blocks.length ([] : Bytes)).drop (blocks.length / 2)).length
        = blocks.length := by
    intro a hal
    simp only [List.length_append, List.length_drop, List.length_replicate, hal]
    omega
  have hlen1 : ∀ b : List Bytes, b.length = blocks.length - blocks.length / 2 →
      ((List.replicate blocks.length ([] : Bytes)).take (blocks.length / 2) ++ b ++
        (List.replicate blocks.length ([] : Bytes)).drop blocks.length).length
        = blocks.length := by
    intro b hbl
    simp only [List.length_append, List.length_take, List.length_drop, List.length_replicate,
      hbl]
    omega
  cases hA : encryptEach be nonceOf n f 0 (blocks.take (blocks.length / 2)) with
  | none =>
    rcases hs with rfl | rfl
    · rw [hfold, hw0 _ hrep, hA]
      rfl
    · rw [hfold, hw1 _ hrep]
      cases hB : encryptEach be nonceOf n f (blocks.length / 2)
          (blocks.drop (blocks.length / 2)) with
      | none => rfl
      | some b =>
        have hbl := encryptEach_length be nonceOf n f _ _ _ hB
        rw [List.length_drop] at hbl
        rw [Option.map_some', Option.some_bind, hw0 _ (hlen1 b hbl), hA]
        rfl
  | some a =>
    have hal := encryptEach_length be nonceOf n f _ _ _ hA
    rw [List.length_take, Nat.min_eq_left hg] at hal
    cases hB : encryptEach be nonceOf n f (blocks.length / 2)
        (blocks.drop (blocks.length / 2)) with
    | none =>
      rcases hs with rfl | rfl
      · rw [hfold, hw0 _ hrep, hA, Option.map_some', Option.some_bind,
          hw1 _ (hlen0 a hal), hB]
        rfl
      · rw [hfold, hw1 _ hrep, hB]
        rfl
    | some b =>
      have hbl := encryptEach_length be nonceOf n f _ _ _ hB
      rw [List.length_drop] at hbl
      rcases hs with rfl | rfl
      · rw [hfold, hw0 _ hrep, hA, Option.map_some', Option.some_bind,
          hw1 _ (hlen0 a hal), hB, Option.map_some', Option.some_bind, Option.map_some',
          List.take_left' hal, List.drop_of_length_le (by rw [hlen0 a hal]),
          List.append_nil]
      · have hd : ((List.replicate blocks.length ([] : Bytes)).take (blocks.length / 2) ++ b ++
            (List.replicate blocks.length ([] : Bytes)).drop blocks.length).drop
              (blocks.length / 2) = b := by
          rw [List.append_assoc, List.drop_left' (by simp [Nat.min_eq_left hg]),
            List.drop_of_length_le (by simp), List.append_nil]
        rw [hfold, hw1 _ hrep, hB, Option.map_some', Option.some_bind,
          hw0 _ (hlen1 b hbl), hA, Option.map_some', Option.some_bind, Option.map_some', hd]

/-- The empty block comes back from `EncryptBlock` as it is, the caller's slice. -/
theorem EncryptBlock_nil (be : ContentEnc) (nonce : Bytes) (b : Nat) (f : Bytes) :
    EncryptBlock be nonce [] b f = .ok [] := by
  simp [EncryptBlock, doEncryptBlock, doEncryptBlockLog]

/-- For a non-empty block of at most `plainBS` bytes, what `EncryptBlock` returns
sits in the buffer taken from `cBlockPool`, and `Put` takes it back. -/
theorem Put_sized_block {cc : CryptoCore} {plainBS : Nat} {forceDecode : Bool}
    {junk : Nat → Nat} {be : ContentEnc} (hNew : New cc plainBS forceDecode junk = .ok be)
    (nonce P : Bytes) (b : Nat) (f : Bytes) (plaintextCap : Nat) (c : Bytes)
    (hP : P ≠ []) (hle : P.length ≤ plainBS)
    (hc : EncryptBlock be nonce P b f = .ok c) :
    be.cBlockPool.Put (ciphertextCap be P plaintextCap c) = some () := by
  have hcs := New_cipherBS hNew
  obtain ⟨hbe, _, _⟩ := New_ok hNew
  have hcc : be.cryptoCore = cc := by rw [hbe]; rfl
  have hpool : be.cBlockPool.sliceLen = be.cipherBS := by rw [hbe]; rfl
  have hP0 : P.length ≠ 0 := by simpa using hP
  by_cases hLen : nonce.length = cc.IVLen
  · have hlog := doEncryptBlockLog_nonempty hNew P b f nonce hP hLen
    simp only [EncryptBlock, doEncryptBlock, hlog, Except.ok.injEq] at hc
    have hT := cc.AEADCipher.sealTo_length nonce P (aDataSpec b f)
    have hcl : c.length ≤ be.cBlockPool.sliceLen := by
      rw [← hc, hpool, hcs, List.length_append, hT, hLen]
      omega
    simp only [bPool.Put, ciphertextCap, if_neg hP0, if_pos hcl]
    simp
  · have hlog := doEncryptBlockLog_wrong_nonce be P b f nonce hP (by rw [hcc]; exact hLen)
    simp only [EncryptBlock, doEncryptBlock, hlog] at hc
    cases hc

/-- The concatenation loop on the per-block encryptions of non-empty blocks of at
most `plainBS` bytes: every `Put` succeeds and the blocks are appended in order. -/
theorem concatLoop_sized {cc : CryptoCore} {plainBS : Nat} {forceDecode : Bool}
    {junk : Nat → Nat} {be : ContentEnc} (hNew : New cc plainBS forceDecode junk = .ok be)
    (nonceOf : Nat → Bytes) (capOf : Nat → Nat) (n : Nat) (f : Bytes) :
    ∀ (blocks : List Bytes) (i k : Nat) (cs : List Bytes) (out : Bytes),
      (∀ b ∈ blocks, b ≠ [] ∧ b.length ≤ plainBS) →
      encryptEach be nonceOf n f i blocks = some cs →
      concatLoop be capOf k blocks cs out = some (out ++ cs.flatten) := by
  intro blocks
  induction blocks with
  | nil =>
    intro i k cs out _ h
    simp only [encryptEach, Option.some.injEq] at h
    rw [← h]
    simp [concatLoop]
  | cons v rest ih =>
    intro i k cs out hs h
    simp only [encryptEach] at h
    cases hres : EncryptBlock be (nonceOf i) v (n + i) f with
    | error e => rw [hres] at h; cases h
    | ok c =>
      rw [hres] at h
      cases hrec : encryptEach be nonceOf n f (i + 1) rest with
      | none => rw [hrec] at h; cases h
      | some tail =>
        rw [hrec] at h
        simp only [Option.map_some', Option.some.injEq] at h
        have hv := hs v (List.mem_cons_self _ _)
        have hput := Put_sized_block hNew (nonceOf i) v (n + i) f (capOf k) c hv.1 hv.2 hres
        rw [← h]
        simp only [concatLoop, List.headD_cons, hput, List.tail_cons]
        rw [ih (i + 1) (k + 1) tail (out ++ c)
          (fun b hb => hs b (List.mem_cons_of_mem _ hb)) hrec]
        simp

/-- The concatenation loop panics when one of the remaining plaintext blocks is
empty and the capacity of its slice is not the size of `cBlockPool`. -/
theorem concatLoop_empty_block (be : ContentEnc) (capOf : Nat → Nat) :
    ∀ (blocks : List Bytes) (k : Nat) (cs : List Bytes) (out : Bytes) (i : Nat),
      cs.length = blocks.length → blocks.get? i = some [] →
      capOf (k + i) ≠ be.cBlockPool.sliceLen →
      concatLoop be capOf k blocks cs out = none := by
  intro blocks
  induction blocks with
  | nil =>
    intro k cs out i _ hi _
    simp at hi
  | cons v rest ih =>
    intro k cs out i hlen hi hcap
    match cs, hlen with
    | c :: tail, hlen =>
      simp only [concatLoop, List.headD_cons, List.tail_cons]
      cases i with
      | zero =>
        simp only [List.get?_cons_zero, Option.some.injEq] at hi
        subst hi
        have hput : be.cBlockPool.Put (ciphertextCap be [] (capOf k) c) = none := by
          simp only [bPool.Put, ciphertextCap, List.length_nil, if_true]
          rw [if_pos (by simpa using hcap)]
        rw [hput]
      | succ i =>
        simp only [List.get?_cons_succ] at hi
        cases be.cBlockPool.Put (ciphertextCap be v (capOf k) c) with
        | none => rfl
        | some _ =>
          simp only []
          exact ih (k + 1) tail (out ++ c) i (by simpa using hlen) hi
            (by rw [show k + 1 + i = k + (i + 1) by omega]; exact hcap)

/-- The index ranges of the groups that the workers of `EncryptBlocks` process,
taken in order, list every index exactly once: the groups are disjoint,
contiguous and cover the input. -/
theorem groupIndices_cover (len numCPU : Nat) (hcpu : 0 < numCPU) :
    ((List.range (min numCPU encryptMaxSplit)).map
      (groupIndices len (min numCPU encryptMaxSplit))).flatten = List.range len := by
  have hcases : min numCPU encryptMaxSplit = 1 ∨ min numCPU encryptMaxSplit = 2 := by
    simp only [encryptMaxSplit]; omega
  rcases hcases with h1 | h1
  · rw [h1]
    simp [groupIndices, groupBounds, List.range_eq_range']
  · rw [h1]
    have hg : len / 2 ≤ len := Nat.div_le_self _ _
    have happ := List.range'_append 0 (len / 2) (len - len / 2) 1
    simp only [Nat.one_mul, Nat.zero_add] at happ
    rw [show len - len / 2 + len / 2 = len by omega] at happ
    simp [groupIndices, groupBounds, List.range_eq_range', List.range'_succ, happ]

/-- The ciphertext blocks that `EncryptBlocks` has before it concatenates them
are the per-block encryptions, in order, on both the sequential and the
parallel path. -/
theorem EncryptBlocks_filled (be : ContentEnc) (numCPU : Nat) (sched : List Nat)
    (nonceOf : Nat → Bytes) (blocks : List Bytes) (n : Nat) (f : Bytes)
    (hcpu : 0 < numCPU)
    (hsched : sched.Perm (List.range (min numCPU encryptMaxSplit))) :
    (if blocks.length ≥ 32 then
      if (if numCPU > encryptMaxSplit then encryptMaxSplit else numCPU) = 0 then none
      else
        sched.foldlM
          (fun cts i =>
            encryptWorker be nonceOf blocks n f
              (if numCPU > encryptMaxSplit then encryptMaxSplit else numCPU)
              (blocks.length / (if numCPU > encryptMaxSplit then encryptMaxSplit else numCPU))
              i cts)
          (List.replicate blocks.length ([] : Bytes))
    else doEncryptBlocks be nonceOf blocks (List.replicate blocks.length ([] : Bytes)) n f)
      = encryptEach be nonceOf n f 0 blocks := by
  by_cases h32 : blocks.length ≥ 32
  · rw [if_pos h32]
    by_cases h2 : numCPU > encryptMaxSplit
    · rw [if_pos h2, if_neg (by decide)]
      have hmin : min numCPU encryptMaxSplit = 2 := by
        simp only [encryptMaxSplit] at h2 ⊢; omega
      rw [hmin] at hsched
      exact workers_two be nonceOf blocks n f sched (perm_range_two sched hsched)
    · rw [if_neg h2, if_neg (by omega)]
      simp only [encryptMaxSplit] at h2 hsched
      have hcases : numCPU = 1 ∨ numCPU = 2 := by omega
      rcases hcases with h1 | h1
      · subst h1
        have hs : sched = [0] := List.perm_singleton.mp hsched
        rw [hs]
        exact workers_one be nonceOf blocks n f
      · subst h1
        exact workers_two be nonceOf blocks n f sched (perm_range_two sched
          (by simpa using hsched))
  · rw [if_neg h32]
    have hloop := doEncryptBlocksLoop_eq be nonceOf nonceOf n n 0 f
      (fun j => by rw [Nat.zero_add]) (by rw [Nat.add_zero]) blocks 0
      (List.replicate blocks.length []) (by simp)
    rw [doEncryptBlocks, hloop]
    simp only [Nat.add_zero, Nat.zero_add, List.take_zero, List.nil_append]
    rw [List.drop_of_length_le (by simp)]
    cases encryptEach be nonceOf n f 0 blocks with
    | none => rfl
    | some cs => simp

/-- On non-empty blocks of at most `plainBS` bytes, `EncryptBlocks` is the
in-order concatenation of the per-block encryptions, on the sequential path and
on the parallel path with the workers running in any order. -/
theorem EncryptBlocks_sized_blocks {cc : CryptoCore} {plainBS : Nat} {forceDecode : Bool}
    {junk : Nat → Nat} {be : ContentEnc} (hNew : New cc plainBS forceDecode junk = .ok be)
    (numCPU : Nat) (sched : List Nat) (nonceOf : Nat → Bytes) (capOf : Nat → Nat)
    (blocks : List Bytes) (n : Nat) (f : Bytes)
    (hcpu : 0 < numCPU)
    (hsched : sched.Perm (List.range (min numCPU encryptMaxSplit)))
    (hsized : ∀ b ∈ blocks, b ≠ [] ∧ b.length ≤ plainBS) :
    EncryptBlocks be numCPU sched nonceOf capOf blocks n f
      = concatEncrypt be nonceOf blocks n f := by
  unfold EncryptBlocks concatEncrypt
  simp only [EncryptBlocks_filled be numCPU sched nonceOf blocks n f hcpu hsched]
  cases hE : encryptEach be nonceOf n f 0 blocks with
  | none => rfl
  | some cs =>
    simp only [Option.map_some']
    rw [concatLoop_sized hNew nonceOf capOf n f blocks 0 0 cs _ hsized hE]
    simp

/-- A list that holds an empty block whose slice has a capacity other than the
size of `cBlockPool` makes `EncryptBlocks` panic. -/
theorem EncryptBlocks_empty_block (be : ContentEnc) (numCPU : Nat) (sched : List Nat)
    (nonceOf : Nat → Bytes) (capOf : Nat → Nat) (blocks : List Bytes) (n : Nat) (f : Bytes)
    (i : Nat) (hcpu : 0 < numCPU)
    (hsched : sched.Perm (List.range (min numCPU encryptMaxSplit)))
    (hi : blocks.get? i = some []) (hcap : capOf i ≠ be.cBlockPool.sliceLen) :
    EncryptBlocks be numCPU sched nonceOf capOf blocks n f = none := by
  unfold EncryptBlocks
  simp only [EncryptBlocks_filled be numCPU sched nonceOf blocks n f hcpu hsched]
  cases hE : encryptEach be nonceOf n f 0 blocks with
  | none => rfl
  | some cs =>
    simp only []
    exact concatLoop_empty_block be capOf blocks 0 cs _ i
      (encryptEach_length be nonceOf n f blocks 0 cs hE) hi (by rw [Nat.zero_add]; exact hcap)

/-! ## Facts about `DecryptBlocks` with forceDecode -/

/-- The loop of `DecryptBlocks` when no remaining chunk makes it break: every
chunk's bytes are appended, and the error returned is the one of the last chunk. -/
theorem DecryptBlocksLoop_no_break (be : ContentEnc) (f ct : Bytes) (n : Nat)
    (hsize : 0 < be.cipherBS) :
    ∀ fuel k pBuf err, ct.length ≤ k * be.cipherBS + fuel →
      (∀ i, k ≤ i → i < numChunks be.cipherBS ct.length →
        ((DecryptBlock be (chunkAt be.cipherBS ct i) (n + i) f).2.isSome &&
          !(be.forceDecode &&
            (DecryptBlock be (chunkAt be.cipherBS ct i) (n + i) f).2 == some Err.ErrAuth))
          = false) →
      DecryptBlocksLoop be f fuel (ct.drop (k * be.cipherBS)) ((n + k) % 2 ^ 64) pBuf err =
        some (pBuf ++ ((List.range' k (numChunks be.cipherBS ct.length - k)).map
          (fun i => (DecryptBlock be (chunkAt be.cipherBS ct i) (n + i) f).1)).flatten,
          if k < numChunks be.cipherBS ct.length then
            (DecryptBlock be (chunkAt be.cipherBS ct
              (numChunks be.cipherBS ct.length - 1)) (n + (numChunks be.cipherBS ct.length - 1))
              f).2
          else err) := by
  intro fuel
  induction fuel with
  | zero =>
    intro k pBuf err hfuel _
    have hnot : ¬ k < numChunks be.cipherBS ct.length := by
      rw [lt_numChunks_iff _ _ _ hsize]; omega
    rw [List.drop_eq_nil_of_le (by omega), DecryptBlocksLoop_nil,
      show numChunks be.cipherBS ct.length - k = 0 by omega, if_neg hnot]
    simp
  | succ fuel ih =>
    intro k pBuf err hfuel hok
    by_cases hk : k < numChunks be.cipherBS ct.length
    · have hk2 := (lt_numChunks_iff _ _ _ hsize).mp hk
      have hne : ct.drop (k * be.cipherBS) ≠ [] := by
        rw [Ne, List.drop_eq_nil_iff]; omega
      have hres := hok k (Nat.le_refl k) hk
      have hchunk : (ct.drop (k * be.cipherBS)).take be.cipherBS = chunkAt be.cipherBS ct k := rfl
      rw [DecryptBlocksLoop_step _ _ _ _ _ _ _ hne, hchunk, DecryptBlock_mod, hres]
      simp only [Bool.false_eq_true, if_false]
      have h2 : (k + 1) * be.cipherBS = k * be.cipherBS + be.cipherBS := by
        rw [Nat.add_mul]; omega
      have h3 : ((n + k) % 2 ^ 64 + 1) % 2 ^ 64 = (n + (k + 1)) % 2 ^ 64 := by
        simp only [Nat.reducePow]; omega
      rw [List.drop_drop, ← h2, h3, ih (k + 1) _ _ (by omega)
        (fun i hi him => hok i (by omega) him),
        show numChunks be.cipherBS ct.length - k
          = (numChunks be.cipherBS ct.length - (k + 1)) + 1 by omega,
        List.range'_succ, List.map_cons, List.flatten_cons, List.append_assoc, if_pos hk]
      by_cases hk1 : k + 1 < numChunks be.cipherBS ct.length
      · rw [if_pos hk1]
      · rw [if_neg hk1, show numChunks be.cipherBS ct.length - 1 = k by omega]
    · have hk2 : ¬ k * be.cipherBS < ct.length := by
        rwa [lt_numChunks_iff _ _ _ hsize] at hk
      rw [List.drop_eq_nil_of_le (by omega), DecryptBlocksLoop_nil,
        show numChunks be.cipherBS ct.length - k = 0 by omega, if_neg hk]
      simp

/-- The loop of `DecryptBlocks` when chunk `j` is the first that makes it break. -/
theorem DecryptBlocksLoop_first_break (be : ContentEnc) (f ct : Bytes) (n : Nat)
    (hsize : 0 < be.cipherBS) (j : Nat)
    (hj : j < numChunks be.cipherBS ct.length)
    (hbreak : ((DecryptBlock be (chunkAt be.cipherBS ct j) (n + j) f).2.isSome &&
          !(be.forceDecode &&
            (DecryptBlock be (chunkAt be.cipherBS ct j) (n + j) f).2 == some Err.ErrAuth))
          = true) :
    ∀ fuel k pBuf err, ct.length ≤ k * be.cipherBS + fuel → k ≤ j →
      (∀ i, k ≤ i → i < j →
        ((DecryptBlock be (chunkAt be.cipherBS ct i) (n + i) f).2.isSome &&
          !(be.forceDecode &&
            (DecryptBlock be (chunkAt be.cipherBS ct i) (n + i) f).2 == some Err.ErrAuth))
          = false) →
      DecryptBlocksLoop be f fuel (ct.drop (k * be.cipherBS)) ((n + k) % 2 ^ 64) pBuf err =
        some (pBuf ++ ((List.range' k (j - k)).map
          (fun i => (DecryptBlock be (chunkAt be.cipherBS ct i) (n + i) f).1)).flatten,
          (DecryptBlock be (chunkAt be.cipherBS ct j) (n + j) f).2) := by
  have hj2 := (lt_numChunks_iff _ _ _ hsize).mp hj
  intro fuel
  induction fuel with
  | zero =>
    intro k pBuf err hfuel hkj _
    have : k * be.cipherBS ≤ j * be.cipherBS := Nat.mul_le_mul_right _ hkj
    omega
  | succ fuel ih =>
    intro k pBuf err hfuel hkj hok
    have hkle : k * be.cipherBS ≤ j * be.cipherBS := Nat.mul_le_mul_right _ hkj
    have hne : ct.drop (k * be.cipherBS) ≠ [] := by
      rw [Ne, List.drop_eq_nil_iff]; omega
    have hchunk : (ct.drop (k * be.cipherBS)).take be.cipherBS = chunkAt be.cipherBS ct k := rfl
    rw [DecryptBlocksLoop_step _ _ _ _ _ _ _ hne, hchunk, DecryptBlock_mod]
    by_cases hkj2 : k = j
    · subst hkj2
      rw [hbreak]
      simp
    · have hres := hok k (Nat.le_refl k) (by omega)
      rw [hres]
      simp only [Bool.false_eq_true, if_false]
      have h2 : (k + 1) * be.cipherBS = k * be.cipherBS + be.cipherBS := by
        rw [Nat.add_mul]; omega
      have h3 : ((n + k) % 2 ^ 64 + 1) % 2 ^ 64 = (n + (k + 1)) % 2 ^ 64 := by
        simp only [Nat.reducePow]; omega
      rw [List.drop_drop, ← h2, h3, ih (k + 1) _ _ (by omega) (by omega)
        (fun i hi hij => hok i (by omega) hij),
        show j - k = (j - (k + 1)) + 1 by omega,
        List.range'_succ, List.map_cons, List.flatten_cons, List.append_assoc]

theorem forceDecode_continue (e : Option Err) (h : e = none ∨ e = some Err.ErrAuth) :
    (e.isSome && !(true && e == some Err.ErrAuth)) = false := by
  rcases h with rfl | rfl <;> rfl

theorem forceDecode_break (e : Option Err) (h1 : e ≠ none) (h2 : e ≠ some Err.ErrAuth) :
    (e.isSome && !(true && e == some Err.ErrAuth)) = true := by
  cases e with
  | none => exact absurd rfl h1
  | some x =>
    have hx : x ≠ Err.ErrAuth := fun h => h2 (by rw [h])
    simp [hx]

/-! ## Facts about open flags -/

theorem testBit_lit_one (i : Nat) : Nat.testBit 1 i = decide (0 = i) := @Nat.testBit_two_pow 0 i
theorem testBit_lit_two (i : Nat) : Nat.testBit 2 i = decide (1 = i) := @Nat.testBit_two_pow 1 i
theorem testBit_lit_append (i : Nat) : Nat.testBit 1024 i = decide (10 = i) :=
  @Nat.testBit_two_pow 10 i
theorem testBit_lit_mask (i : Nat) : Nat.testBit (2 ^ 64 - 1) i = decide (i < 64) :=
  Nat.testBit_two_pow_sub_one 64 i

theorem mod_four_eq (n : Nat) :
    n % 4 = (if n.testBit 1 then 2 else 0) + (if n.testBit 0 then 1 else 0) := by
  have h1 : n.testBit 1 = decide (n / 2 % 2 = 1) := by
    rw [show (1 : Nat) = Nat.succ 0 from rfl, Nat.testBit_succ, Nat.testBit_zero]
  rw [h1, Nat.testBit_zero]
  by_cases a : n / 2 % 2 = 1 <;> by_cases b : n % 2 = 1 <;> simp [a, b] <;> omega

theorem andNot_testBit (x y i : Nat) :
    (andNot x y).testBit i = (x.testBit i && (decide (i < 64) ^^ y.testBit i)) := by
  simp only [andNot, Nat.testBit_and, Nat.testBit_xor, testBit_lit_mask]

theorem mangle_testBit (flags i : Nat) :
    (mangleOpenFlags flags).1.testBit i =
      if flags % 2 = 1 then
        (((flags.testBit i ^^ decide (0 = i)) || decide (1 = i)) &&
          (decide (i < 64) ^^ decide (10 = i)))
      else (flags.testBit i && (decide (i < 64) ^^ decide (10 = i))) := by
  unfold mangleOpenFlags
  simp only [O_WRONLY, O_RDWR, O_APPEND, Nat.and_one_is_mod]
  by_cases h : flags % 2 = 1
  · rw [if_pos (by omega), if_pos h]
    simp only [andNot_testBit, Nat.testBit_or, Nat.testBit_xor, testBit_lit_one,
      testBit_lit_two, testBit_lit_append]
  · rw [if_neg (by omega), if_neg h]
    simp only [andNot_testBit, testBit_lit_append]
theorem and_accmode (x : Nat) : x &&& O_ACCMODE = x % 4 :=
  Nat.and_pow_two_sub_one_eq_mod x 2

theorem testBit_one_eq (n : Nat) : n.testBit 1 = decide (n / 2 % 2 = 1) := by
  rw [show (1 : Nat) = Nat.succ 0 from rfl, Nat.testBit_succ, Nat.testBit_zero]

/-! ## Facts about base64 -/

theorem sextet_facts : ∀ s, s < 64 →
    decodeChar (encodeSextet s) = some s ∧ encodeSextet s ≠ padChar ∧
      encodeSextet s ≠ 10 ∧ encodeSextet s ≠ 13 := by
  decide

theorem EncodeToString_no_linebreak : ∀ (x : Bytes), (∀ v ∈ x, v < 256) →
    ∀ c ∈ EncodeToString x, c ≠ 10 ∧ c ≠ 13
  | [], _ => by simp [EncodeToString]
  | [a], h => by
    have ha : a < 256 := h a (by simp)
    intro c hc
    simp only [EncodeToString, List.mem_cons, List.mem_singleton, List.not_mem_nil,
      or_false] at hc
    rcases hc with rfl | rfl | rfl | rfl
    · exact (sextet_facts _ (by omega)).2.2
    · exact (sextet_facts _ (by omega)).2.2
    · decide
    · decide
  | [a, b], h => by
    have ha : a < 256 := h a (by simp)
    have hb : b < 256 := h b (by simp)
    intro c hc
    simp only [EncodeToString, List.mem_cons, List.mem_singleton, List.not_mem_nil,
      or_false] at hc
    rcases hc with rfl | rfl | rfl | rfl
    · exact (sextet_facts _ (by omega)).2.2
    · exact (sextet_facts _ (by omega)).2.2
    · exact (sextet_facts _ (by omega)).2.2
    · decide
  | a :: b :: c :: rest, h => by
    have ha : a < 256 := h a (by simp)
    have hb : b < 256 := h b (by simp)
    have hc : c < 256 := h c (by simp)
    have ih := EncodeToString_no_linebreak rest (fun v hv => h v (by simp [hv]))
    intro x hx
    simp only [EncodeToString, List.cons_append, List.nil_append, List.mem_cons] at hx
    rcases hx with rfl | rfl | rfl | rfl | hx
    · exact (sextet_facts _ (by omega)).2.2
    · exact (sextet_facts _ (by omega)).2.2
    · exact (sextet_facts _ (by omega)).2.2
    · exact (sextet_facts _ (by omega)).2.2
    · exact ih x hx

theorem decodeQuanta_EncodeToString : ∀ (x : Bytes), (∀ v ∈ x, v < 256) →
    decodeQuanta (EncodeToString x) = some x
  | [], _ => by simp [EncodeToString, decodeQuanta]
  | [a], h => by
    have ha : a < 256 := h a (by simp)
    have h0 := sextet_facts (a / 4) (by omega)
    have h1 := sextet_facts (a % 4 * 16) (by omega)
    simp only [EncodeToString, decodeQuanta, h0.1, h1.1, if_true, and_self]
    congr 2
    omega
  | [a, b], h => by
    have ha : a < 256 := h a (by simp)
    have hb : b < 256 := h b (by simp)
    have h0 := sextet_facts (a / 4) (by omega)
    have h1 := sextet_facts (a % 4 * 16 + b / 16) (by omega)
    have h2 := sextet_facts (b % 16 * 4) (by omega)
    simp only [EncodeToString, decodeQuanta, h0.1, h1.1, h2.1, if_neg h2.2.1, if_true]
    congr 2
    · omega
    · congr 1
      omega
  | a :: b :: c :: rest, h => by
    have ha : a < 256 := h a (by simp)
    have hb : b < 256 := h b (by simp)
    have hc : c < 256 := h c (by simp)
    have ih := decodeQuanta_EncodeToString rest (fun v hv => h v (by simp [hv]))
    have h0 := sextet_facts (a / 4) (by omega)
    have h1 := sextet_facts (a % 4 * 16 + b / 16) (by omega)
    have h2 := sextet_facts (b % 16 * 4 + c / 64) (by omega)
    have h3 := sextet_facts (c % 64) (by omega)
    have e1 : a / 4 * 4 + (a % 4 * 16 + b / 16) / 16 = a := by omega
    have e2 : (a % 4 * 16 + b / 16) % 16 * 16 + (b % 16 * 4 + c / 64) / 4 = b := by omega
    have e3 : (b % 16 * 4 + c / 64) % 4 * 64 + c % 64 = c := by omega
    simp only [EncodeToString, List.cons_append, List.nil_append, decodeQuanta, h0.1, h1.1,
      h2.1, h3.1, if_neg h2.2.1, if_neg h3.2.1, List.append_eq, ih, Option.map_some', e1, e2,
      e3]

theorem DecodeString_EncodeToString (x : Bytes) (h : ∀ v ∈ x, v < 256) :
    DecodeString (EncodeToString x) = some x := by
  unfold DecodeString
  rw [List.filter_eq_self.mpr, decodeQuanta_EncodeToString x h]
  intro c hc
  have := EncodeToString_no_linebreak x h c hc
  simp [this.1, this.2]

/-! ## Facts about the operations of `FS` -/

theorem call_run (fs : FS) (e : Effect) (calls : List Effect) :
    (fs.call e).run calls = (fs.world calls e, calls ++ [e]) := rfl

theorem getBackingPath_run (fs : FS) (relPath : Bytes) (calls : List Effect) :
    (fs.getBackingPath relPath).run calls =
      (if (fs.world calls (.encryptPath relPath)).err.isSome then
          ([], (fs.world calls (.encryptPath relPath)).err)
        else (fs.Join fs.args.Cipherdir (fs.world calls (.encryptPath relPath)).str, none),
       calls ++ [.encryptPath relPath]) := by
  simp only [FS.getBackingPath, StateT.run_bind, call_run, Id.bind_eq]
  split_ifs <;> rfl

/-! ## The claims -/

/-- C1. Round trip: for a content encryptor built by `New`, every plaintext `P`
(empty or not), block number `b` and fileID `f`, with a generated nonce of the
configured IV length that is not all zeros and an AEAD whose `Open` inverts its
`Seal` on this block under the same nonce and associated data: `EncryptBlock`
returns a ciphertext `c`, and `DecryptBlock c b f` returns `P` and no error. -/
theorem DecryptBlock_EncryptBlock_roundtrip {cc : CryptoCore} {plainBS : Nat}
    {forceDecode : Bool} {junk : Nat → Nat} {be : ContentEnc}
    (hNew : New cc plainBS forceDecode junk = .ok be)
    (P : Bytes) (b : Nat) (f nonce : Bytes)
    (hLen : nonce.length = cc.IVLen)
    (hNZ : ∃ x ∈ nonce, x ≠ 0)
    (hInv : cc.AEADCipher.openTo nonce (cc.AEADCipher.sealTo nonce P (aDataSpec b f))
      (aDataSpec b f) = (P, none)) :
    ∃ c, EncryptBlock be nonce P b f = .ok c ∧ DecryptBlock be c b f = (P, none) := by
  by_cases hP : P = []
  · subst hP
    exact ⟨[], by simp [EncryptBlock, doEncryptBlock, doEncryptBlockLog_nil],
      by simp [DecryptBlock, DecryptBlockLog_nil]⟩
  · refine ⟨nonce ++ cc.AEADCipher.sealTo nonce P (aDataSpec b f), ?_, ?_⟩
    · simp [EncryptBlock, doEncryptBlock, doEncryptBlockLog_nonempty hNew P b f nonce hP hLen]
    · simp [DecryptBlock, DecryptBlockLog_nonce hNew nonce _ b f hLen hNZ, hInv]

theorem DecryptBlock_EncryptBlock_roundtrip_witness :
    ∃ c, EncryptBlock toyBE [1, 2] [10, 20, 30] 5 [7, 7] = .ok c ∧
      DecryptBlock toyBE c 5 [7, 7] = ([10, 20, 30], none) :=
  @DecryptBlock_EncryptBlock_roundtrip toyCore 4 false (fun _ => 0) toyBE rfl
    [10, 20, 30] 5 [7, 7] [1, 2] (by decide) (by decide) (by decide)

/-- C2, as stated, fails: with a cipher whose `Open` rejects every input, the
empty plaintext encrypts to the empty block, which decrypts without error under
another block number and under another fileID; and a block sealed under an
all-zero nonce fails under another block number with the all-zero-nonce error,
not the authentication error. -/
theorem DecryptBlock_wrong_domain_counterexample :
    EncryptBlock rejectAllBE [1, 2] [] 5 [7, 7] = .ok [] ∧
    DecryptBlock rejectAllBE [] 6 [7, 7] = ([], none) ∧
    DecryptBlock rejectAllBE [] 5 [8, 8] = ([], none) ∧
    EncryptBlock rejectAllBE [0, 0] [9] 5 [7, 7]
      = .ok [0, 0, 9, 0, 0, 0, 0, 0, 0, 0, 0, 0, 0, 0, 0, 0, 0, 0, 0] ∧
    DecryptBlock rejectAllBE [0, 0, 9, 0, 0, 0, 0, 0, 0, 0, 0, 0, 0, 0, 0, 0, 0, 0, 0] 6 [7, 7]
      = ([], some Err.allZeroNonce) :=
  ⟨rfl, rfl, rfl, rfl, rfl⟩

/-- C2, amended. Authentication domain: for a content encryptor built by `New`
with forceDecode off, every non-empty plaintext `P`, block numbers `b`, `b'`
below `2^64` and fileIDs `f`, `f'` with `b' ≠ b` or `f' ≠ f`, a nonce of the
configured IV length that is not all zeros, and an AEAD that rejects this
sealed block under associated data other than the one used to seal: `EncryptBlock P b f` returns a ciphertext `c`, and `DecryptBlock c b' f'`
returns no plaintext and the authentication error. -/
theorem DecryptBlock_wrong_domain_fails {cc : CryptoCore} {plainBS : Nat}
    {junk : Nat → Nat} {be : ContentEnc}
    (hNew : New cc plainBS false junk = .ok be)
    (P : Bytes) (b b' : Nat) (f f' nonce : Bytes)
    (hP : P ≠ [])
    (hb : b < 2 ^ 64) (hb' : b' < 2 ^ 64)
    (hne : b' ≠ b ∨ f' ≠ f)
    (hLen : nonce.length = cc.IVLen)
    (hNZ : ∃ x ∈ nonce, x ≠ 0)
    (hRej : aDataSpec b' f' ≠ aDataSpec b f →
      (cc.AEADCipher.openTo nonce (cc.AEADCipher.sealTo nonce P (aDataSpec b f))
        (aDataSpec b' f')).2 = some Err.ErrAuth) :
    ∃ c, EncryptBlock be nonce P b f = .ok c ∧
      DecryptBlock be c b' f' = ([], some Err.ErrAuth) := by
  have had : aDataSpec b' f' ≠ aDataSpec b f := by
    intro h
    obtain ⟨h1, h2⟩ := aDataSpec_injective b' b f' f hb' hb h
    rcases hne with h | h
    · exact h h1
    · exact h h2
  refine ⟨nonce ++ cc.AEADCipher.sealTo nonce P (aDataSpec b f), ?_, ?_⟩
  · simp [EncryptBlock, doEncryptBlock, doEncryptBlockLog_nonempty hNew P b f nonce hP hLen]
  · simp [DecryptBlock, DecryptBlockLog_nonce hNew nonce _ b' f' hLen hNZ, hRej had]

theorem DecryptBlock_wrong_domain_fails_witness :
    ∃ c, EncryptBlock toyBE [1, 2] [10, 20, 30] 5 [7, 7] = .ok c ∧
      DecryptBlock toyBE c 6 [7, 7] = ([], some Err.ErrAuth) :=
  @DecryptBlock_wrong_domain_fails toyCore 4 (fun _ => 0) toyBE rfl
    [10, 20, 30] 5 6 [7, 7] [7, 7] [1, 2]
    (by decide) (by decide) (by decide) (by decide) (by decide) (by decide) (by decide)

/-- C3. Hole passthrough: for a content encryptor built by `New`, every block
number and fileID, `DecryptBlock` on a ciphertext of exactly `cipherBS` bytes
that are all zero returns `plainBS` zero bytes and no error, and makes no AEAD
call. -/
theorem DecryptBlock_hole {cc : CryptoCore} {plainBS : Nat} {forceDecode : Bool}
    {junk : Nat → Nat} {be : ContentEnc}
    (hNew : New cc plainBS forceDecode junk = .ok be)
    (c : Bytes) (b : Nat) (f : Bytes)
    (hlen : c.length = be.cipherBS) (hzero : ∀ x ∈ c, x = 0) :
    DecryptBlock be c b f = (List.replicate plainBS 0, none) ∧
      (DecryptBlockLog be c b f).2 = [] := by
  have hc := New_cipherBS hNew
  obtain ⟨hbe, hpos, hle⟩ := New_ok hNew
  have hzb : be.allZeroBlock = List.replicate be.cipherBS 0 := by rw [hbe]; rfl
  have hpl : be.plainBS = plainBS := by rw [hbe]; rfl
  have hceq : c = be.allZeroBlock := by
    rw [hzb, ← hlen]
    exact List.eq_replicate_iff.mpr ⟨rfl, hzero⟩
  have h0 : c.length ≠ 0 := by rw [hlen, hc, AuthTagLen]; omega
  unfold DecryptBlock DecryptBlockLog
  rw [if_neg h0, if_pos hceq, hpl]
  exact ⟨rfl, rfl⟩

theorem DecryptBlock_hole_witness :
    DecryptBlock toyBE (List.replicate 22 0) 5 [7, 7] = (List.replicate 4 0, none) ∧
      (DecryptBlockLog toyBE (List.replicate 22 0) 5 [7, 7]).2 = [] :=
  @DecryptBlock_hole toyCore 4 false (fun _ => 0) toyBE rfl (List.replicate 22 0) 5 [7, 7]
    (by decide) (by decide)

/-- C4. Empty blocks map to empty blocks: for every content encryptor, nonce,
block number and fileID, `EncryptBlock` of the empty plaintext returns the empty
ciphertext without an AEAD call (no nonce, no tag), and `DecryptBlock` of the
empty ciphertext returns the empty plaintext and no error. -/
theorem empty_block_to_empty_block (be : ContentEnc) (nonce : Bytes) (b b' : Nat)
    (f f' : Bytes) :
    EncryptBlock be nonce [] b f = .ok [] ∧
      (doEncryptBlockLog be [] b f nonce).2 = [] ∧
      DecryptBlock be [] b' f' = ([], none) ∧
      (DecryptBlockLog be [] b' f').2 = [] := by
  simp [EncryptBlock, doEncryptBlock, DecryptBlock, doEncryptBlockLog_nil, DecryptBlockLog_nil]

/-- C5. Corrupt blocks are rejected before authentication: for a content
encryptor built by `New` and every non-empty ciphertext that is not the
full-size all-zero hole block, if it is shorter than the nonce length or its
first `IVLen` bytes are all zeros, `DecryptBlock` returns no plaintext and an
error (block too short in the first case, all-zero nonce otherwise) and makes
no AEAD call. -/
theorem DecryptBlock_corrupt {cc : CryptoCore} {plainBS : Nat} {forceDecode : Bool}
    {junk : Nat → Nat} {be : ContentEnc}
    (hNew : New cc plainBS forceDecode junk = .ok be)
    (c : Bytes) (b : Nat) (f : Bytes)
    (hne : c ≠ [])
    (hhole : ¬ (c.length = be.cipherBS ∧ ∀ x ∈ c, x = 0))
    (hbad : c.length < cc.IVLen ∨ ∀ x ∈ c.take cc.IVLen, x = 0) :
    DecryptBlockLog be c b f =
      (([], some (if c.length < cc.IVLen then Err.blockTooShort else Err.allZeroNonce)),
        []) := by
  obtain ⟨hbe, hpos, hle⟩ := New_ok hNew
  have hcc : be.cryptoCore = cc := by rw [hbe]; rfl
  have hzb : be.allZeroBlock = List.replicate be.cipherBS 0 := by rw [hbe]; rfl
  have hzn : be.allZeroNonce = List.replicate cc.IVLen 0 := by rw [hbe]; rfl
  have h0 : c.length ≠ 0 := by simpa using hne
  have hnh : c ≠ be.allZeroBlock := by
    rw [hzb]
    intro h
    apply hhole
    rw [List.eq_replicate_iff] at h
    exact h
  unfold DecryptBlockLog
  rw [if_neg h0, if_neg hnh, hcc]
  by_cases hs : c.length < cc.IVLen
  · rw [if_pos hs, if_pos hs]
  · rw [if_neg hs, if_neg hs]
    have hz : ∀ x ∈ c.take cc.IVLen, x = 0 := by
      rcases hbad with h | h
      · exact absurd h hs
      · exact h
    have hnonce : c.take cc.IVLen = be.allZeroNonce := by
      rw [hzn]
      exact List.eq_replicate_iff.mpr ⟨by rw [List.length_take]; omega, hz⟩
    simp only [hnonce, if_true]

theorem DecryptBlock_corrupt_witness :
    DecryptBlockLog toyBE [0, 0, 3, 4] 5 [7, 7] = (([], some Err.allZeroNonce), []) :=
  @DecryptBlock_corrupt toyCore 4 false (fun _ => 0) toyBE rfl [0, 0, 3, 4] 5 [7, 7]
    (by decide) (by decide) (by decide)

/-- C6. Ciphertext block layout: for a content encryptor built by `New`, every
non-empty plaintext `P` and the nonce drawn from the generator, whatever
`EncryptBlock` returns is `nonce ‖ seal(nonce, aad, P)` with
`aad = big-endian-uint64(blockNo) ‖ fileID`, of length
`|P| + (cipherBS − plainBS)`; the AEAD's seal output being `|P|` plus the
16-byte tag, the length assertion (panic) is never triggered, and with a nonce
of `IVLen` bytes `EncryptBlock` does return that value. -/
theorem EncryptBlock_layout {cc : CryptoCore} {plainBS : Nat} {forceDecode : Bool}
    {junk : Nat → Nat} {be : ContentEnc}
    (hNew : New cc plainBS forceDecode junk = .ok be)
    (P : Bytes) (b : Nat) (f nonce : Bytes) (hP : P ≠ []) :
    (∀ c, EncryptBlock be nonce P b f = .ok c →
      c = nonce ++ cc.AEADCipher.sealTo nonce P (aDataSpec b f) ∧
      c.length = P.length + (be.cipherBS - be.plainBS)) ∧
    EncryptBlock be nonce P b f ≠ .error .unexpectedCiphertextLength ∧
    (nonce.length = cc.IVLen →
      EncryptBlock be nonce P b f
        = .ok (nonce ++ cc.AEADCipher.sealTo nonce P (aDataSpec b f))) := by
  have hc := New_cipherBS hNew
  obtain ⟨hbe, hpos, hle⟩ := New_ok hNew
  have hcc : be.cryptoCore = cc := by rw [hbe]; rfl
  have hpl : be.plainBS = plainBS := by rw [hbe]; rfl
  have hT := cc.AEADCipher.sealTo_length nonce P (aDataSpec b f)
  by_cases hLen : nonce.length = cc.IVLen
  · have hok : EncryptBlock be nonce P b f
        = .ok (nonce ++ cc.AEADCipher.sealTo nonce P (aDataSpec b f)) := by
      rw [EncryptBlock, doEncryptBlock, doEncryptBlockLog_nonempty hNew P b f nonce hP hLen]
    refine ⟨?_, ?_, fun _ => hok⟩
    · intro c hcok
      rw [hok] at hcok
      injection hcok with hcok
      subst hcok
      refine ⟨rfl, ?_⟩
      rw [List.length_append, hT, hLen, hc, hpl]
      omega
    · rw [hok]
      intro h
      cases h
  · have herr : EncryptBlock be nonce P b f = .error .wrongNonceLength := by
      rw [EncryptBlock, doEncryptBlock,
        doEncryptBlockLog_wrong_nonce be P b f nonce hP (by rw [hcc]; exact hLen)]
    refine ⟨?_, ?_, fun h => absurd h hLen⟩
    · intro c hcok
      rw [herr] at hcok
      cases hcok
    · rw [herr]
      intro h
      cases h

theorem EncryptBlock_layout_witness :
    (∀ c, EncryptBlock toyBE [1, 2] [10, 20, 30] 5 [7, 7] = .ok c →
      c = [1, 2] ++ toyCore.AEADCipher.sealTo [1, 2] [10, 20, 30] (aDataSpec 5 [7, 7]) ∧
      c.length = [10, 20, 30].length + (toyBE.cipherBS - toyBE.plainBS)) ∧
    EncryptBlock toyBE [1, 2] [10, 20, 30] 5 [7, 7] ≠ .error .unexpectedCiphertextLength ∧
    ([1, 2].length = toyCore.IVLen →
      EncryptBlock toyBE [1, 2] [10, 20, 30] 5 [7, 7]
        = .ok ([1, 2] ++ toyCore.AEADCipher.sealTo [1, 2] [10, 20, 30] (aDataSpec 5 [7, 7]))) :=
  @EncryptBlock_layout toyCore 4 false (fun _ => 0) toyBE rfl [10, 20, 30] 5 [7, 7] [1, 2]
    (by decide)

/-- C7, as stated, fails: with a 128-bit (16-byte) fileID the associated data
that `EncryptBlock` hands to `Seal` and that `DecryptBlock` hands to `Open` is
24 bytes long, not 16. -/
theorem aData_length_counterexample :
    (doEncryptBlockLog toyBE16 [9] 3 (List.replicate 16 7) (List.replicate 16 1)).2.map
        (fun call => call.aData.length) = [24] ∧
    (DecryptBlockLog toyBE16 (List.replicate 16 1 ++ [10] ++ List.replicate 16 0) 3
        (List.replicate 16 7)).2.map (fun call => call.aData.length) = [24] := by
  decide

/-- C7, amended. Associated data format: for every block number `b` and every
128-bit (16-byte) fileID `f`, the associated data of every AEAD call that
`EncryptBlock` and `DecryptBlock` make is the 24-byte concatenation
`big-endian-uint64(b) ‖ f`; the two operations build the identical byte
string. -/
theorem aData_format (be : ContentEnc) (P nonce c : Bytes) (b : Nat) (f : Bytes)
    (hf : f.length = 16) :
    (∀ call ∈ (doEncryptBlockLog be P b f nonce).2,
      call.aData = be64 (b % 2 ^ 64) ++ f ∧ call.aData.length = 24) ∧
    (∀ call ∈ (DecryptBlockLog be c b f).2,
      call.aData = be64 (b % 2 ^ 64) ++ f ∧ call.aData.length = 24) ∧
    (∀ call ∈ (doEncryptBlockLog be P b f nonce).2,
      ∀ call' ∈ (DecryptBlockLog be c b f).2, call.aData = call'.aData) := by
  have hspec : aDataSpec b f = be64 (b % 2 ^ 64) ++ f := by rw [be64_mod]; rfl
  have hl : (be64 (b % 2 ^ 64) ++ f).length = 24 := by
    rw [List.length_append, be64_length, hf]
  refine ⟨?_, ?_, ?_⟩
  · intro call hcall
    rw [doEncryptBlockLog_calls be P b f nonce call hcall, hspec]
    exact ⟨rfl, hl⟩
  · intro call hcall
    rw [DecryptBlockLog_calls be c b f call hcall, hspec]
    exact ⟨rfl, hl⟩
  · intro call hcall call' hcall'
    rw [doEncryptBlockLog_calls be P b f nonce call hcall,
      DecryptBlockLog_calls be c b f call' hcall']

theorem aData_format_witness :
    (doEncryptBlockLog toyBE16 [9] 3 (List.replicate 16 7) (List.replicate 16 1)).2
      = [AEADCall.Seal (List.replicate 16 1) (List.replicate 16 1) [9]
          ([0, 0, 0, 0, 0, 0, 0, 3] ++ List.replicate 16 7)] ∧
    ((∀ call ∈ (doEncryptBlockLog toyBE16 [9] 3 (List.replicate 16 7)
        (List.replicate 16 1)).2,
      call.aData = be64 (3 % 2 ^ 64) ++ List.replicate 16 7 ∧ call.aData.length = 24) ∧
    (∀ call ∈ (DecryptBlockLog toyBE16 (List.replicate 16 1 ++ [10] ++ List.replicate 16 0) 3
        (List.replicate 16 7)).2,
      call.aData = be64 (3 % 2 ^ 64) ++ List.replicate 16 7 ∧ call.aData.length = 24) ∧
    (∀ call ∈ (doEncryptBlockLog toyBE16 [9] 3 (List.replicate 16 7)
        (List.replicate 16 1)).2,
      ∀ call' ∈ (DecryptBlockLog toyBE16
        (List.replicate 16 1 ++ [10] ++ List.replicate 16 0) 3 (List.replicate 16 7)).2,
      call.aData = call'.aData)) :=
  ⟨by decide, aData_format toyBE16 [9] (List.replicate 16 1)
    (List.replicate 16 1 ++ [10] ++ List.replicate 16 0) 3 (List.replicate 16 7) (by decide)⟩

/-- C9. `MergeBlocks` is the byte-wise overlay: for every old block, new data
and offset `≥ 0` with `|old| ≤ plainBS` and `offset + |new| ≤ plainBS`,
`MergeBlocks` returns a block of length `max(|old|, offset + |new|)` whose byte
`i` is `new[i − offset]` when `offset ≤ i < offset + |new|`, otherwise `old[i]`
when `i < |old|`, otherwise 0; on the fast path (`|old| = 0` and `offset = 0`)
the block returned is `new` itself. -/
theorem MergeBlocks_overlay (be : ContentEnc) (old new : Bytes) (offset : Int)
    (hoff : 0 ≤ offset) (hold : old.length ≤ be.plainBS)
    (hnew : offset + (new.length : Int) ≤ (be.plainBS : Int)) :
    ∃ r, MergeBlocks be old new offset = .ok r ∧
      (r.length : Int) = max (old.length : Int) (offset + (new.length : Int)) ∧
      (∀ i, i < r.length → r.getD i 0 = overlayByte old new offset i) ∧
      (old.length = 0 → offset = 0 → r = new) := by
  obtain ⟨off, rfl⟩ := Int.eq_ofNat_of_zero_le hoff
  by_cases hfast : old.length = 0 ∧ (off : Int) = 0
  · refine ⟨new, by rw [MergeBlocks, if_pos hfast], ?_, ?_, fun _ _ => rfl⟩
    · obtain ⟨h1, h2⟩ := hfast
      rw [h1, h2]
      simp
    · intro i hi
      obtain ⟨h1, h2⟩ := hfast
      have h3 : off = 0 := by exact_mod_cast h2
      subst h3
      simp only [overlayByte]
      rw [if_pos ⟨by omega, by omega⟩]
      congr 1
  · have hA := goCopy_zeros be.plainBS old hold
    have hAlen : (goCopy (List.replicate be.plainBS 0) old).length = be.plainBS := by
      rw [goCopy_length, List.length_replicate]
    have hsub : goCopy (((goCopy (List.replicate be.plainBS 0) old).drop off).take new.length)
        new = new := by
      apply goCopy_same_length
      rw [List.length_take, List.length_drop, hAlen]
      omega
    have hlen2 : ((goCopy (List.replicate be.plainBS 0) old).take off ++ new ++
        (goCopy (List.replicate be.plainBS 0) old).drop (off + new.length)).length
          = be.plainBS := by
      simp only [List.length_append, List.length_take, List.length_drop, hAlen]
      omega
    refine ⟨((goCopy (List.replicate be.plainBS 0) old).take off ++ new ++
        (goCopy (List.replicate be.plainBS 0) old).drop (off + new.length)).take
          (max old.length (off + new.length)), ?_, ?_, ?_, ?_⟩
    · rw [MergeBlocks, if_neg hfast]
      simp only [Int.toNat_ofNat, hsub, hlen2, hAlen]
      rw [if_neg (by omega)]
      split_ifs with h1 h2 h3
      · omega
      · congr 2
        omega
      · omega
      · congr 2
        omega
    · rw [List.length_take, hlen2]
      omega
    · intro i hi
      rw [List.length_take, hlen2] at hi
      have hgd : ∀ l : Bytes, (l.take (max old.length (off + new.length))).getD i 0
          = l.getD i 0 := by
        intro l
        simp only [List.getD_eq_getElem?_getD, List.getElem?_take]
        rw [if_pos (by omega)]
      rw [hgd, getD_splice _ _ _ _ (by rw [hAlen]; omega), hA, getD_append_zeros]
      simp only [overlayByte]
      by_cases hc : off ≤ i ∧ i < off + new.length
      · rw [if_pos hc, if_pos ⟨by omega, by omega⟩]
        congr 1
        omega
      · have hc2 : ¬ ((off : Int) ≤ (i : Int) ∧ (i : Int) < (off : Int) + (new.length : Int)) := by
          omega
        rw [if_neg hc, if_neg hc2]
    · intro h1 h2
      exact absurd ⟨h1, h2⟩ hfast

theorem MergeBlocks_overlay_witness :
    ∃ r, MergeBlocks toyBE [1] [9] 3 = .ok r ∧
      (r.length : Int) = max (([1] : Bytes).length : Int) (3 + (([9] : Bytes).length : Int)) ∧
      (∀ i, i < r.length → r.getD i 0 = overlayByte [1] [9] 3 i) ∧
      (([1] : Bytes).length = 0 → (3 : Int) = 0 → r = [9]) :=
  MergeBlocks_overlay toyBE [1] [9] 3 (by decide) (by decide) (by decide)

/-- C10. `DecryptBlocks` chunking and first-error stop (forceDecode off): for a
content encryptor built by `New` with forceDecode off, every ciphertext, first
block number `n` and fileID `f`, the input is the concatenation of its
consecutive chunks, each of `cipherBS` bytes except perhaps the last; chunk `i`
is decrypted with `DecryptBlock` under block number `n + i` (in `uint64`); if
no chunk fails, `DecryptBlocks` returns the concatenation of the chunk
plaintexts and no error; if chunk `j` is the first to fail, it returns the
concatenated plaintext of the chunks before `j` and the error of chunk `j`. -/
theorem DecryptBlocks_chunks {cc : CryptoCore} {plainBS : Nat} {junk : Nat → Nat}
    {be : ContentEnc} (hNew : New cc plainBS false junk = .ok be)
    (ct : Bytes) (n : Nat) (f : Bytes) :
    ((List.range (numChunks be.cipherBS ct.length)).map (chunkAt be.cipherBS ct)).flatten = ct ∧
    (∀ i, i + 1 < numChunks be.cipherBS ct.length →
      (chunkAt be.cipherBS ct i).length = be.cipherBS) ∧
    ((∀ i, i < numChunks be.cipherBS ct.length →
        (DecryptBlock be (chunkAt be.cipherBS ct i) (n + i) f).2 = none) →
      DecryptBlocks be ct n f =
        some (((List.range (numChunks be.cipherBS ct.length)).map
          (fun i => (DecryptBlock be (chunkAt be.cipherBS ct i) (n + i) f).1)).flatten,
          none)) ∧
    (∀ j, j < numChunks be.cipherBS ct.length →
      (∀ i, i < j → (DecryptBlock be (chunkAt be.cipherBS ct i) (n + i) f).2 = none) →
      (DecryptBlock be (chunkAt be.cipherBS ct j) (n + j) f).2 ≠ none →
      DecryptBlocks be ct n f =
        some (((List.range j).map
          (fun i => (DecryptBlock be (chunkAt be.cipherBS ct i) (n + i) f).1)).flatten,
          (DecryptBlock be (chunkAt be.cipherBS ct j) (n + j) f).2)) := by
  have hc := New_cipherBS hNew
  obtain ⟨hbe, hpos, hle⟩ := New_ok hNew
  have hfd : be.forceDecode = false := by rw [hbe]; rfl
  have hsize : 0 < be.cipherBS := by rw [hc, AuthTagLen]; omega
  refine ⟨?_, ?_, ?_, ?_⟩
  · rw [List.range_eq_range']
    have h := chunks_flatten_from be.cipherBS ct hsize (numChunks be.cipherBS ct.length) 0 rfl
    simpa using h
  · intro i hi
    exact chunkAt_length _ _ _ hsize hi
  · intro hok
    have h := DecryptBlocksLoop_all_ok be f ct n hsize ct.length 0 [] (by omega)
      (fun i _ hi => hok i hi)
    simp only [Nat.zero_mul, List.drop_zero, Nat.add_zero, List.nil_append, Nat.sub_zero,
      ← List.range_eq_range', DecryptBlocksLoop_mod] at h
    unfold DecryptBlocks
    rw [List.take_zero, h]
  · intro j hj hok hfail
    have h := DecryptBlocksLoop_first_error be f ct n hsize hfd j hj hfail ct.length 0 [] none
      (by omega) (Nat.zero_le j) (fun i _ hi => hok i hi)
    simp only [Nat.zero_mul, List.drop_zero, Nat.add_zero, List.nil_append, Nat.sub_zero,
      ← List.range_eq_range', DecryptBlocksLoop_mod] at h
    unfold DecryptBlocks
    rw [List.take_zero, h]

theorem DecryptBlocks_chunks_witness :
    DecryptBlocks toyBE (List.replicate 22 0 ++ [1, 2, 11, 21, 31] ++ List.replicate 16 23)
        5 [7, 7] = some ([0, 0, 0, 0, 10, 20, 30], none) ∧
    DecryptBlocks toyBE (List.replicate 22 0 ++ [1, 2, 11, 21, 31] ++ List.replicate 16 24)
        5 [7, 7] = some ([0, 0, 0, 0], some Err.ErrAuth) :=
  ⟨(@DecryptBlocks_chunks toyCore 4 (fun _ => 0) toyBE rfl
      (List.replicate 22 0 ++ [1, 2, 11, 21, 31] ++ List.replicate 16 23) 5 [7, 7]).2.2.1
      (by decide),
    (@DecryptBlocks_chunks toyCore 4 (fun _ => 0) toyBE rfl
      (List.replicate 22 0 ++ [1, 2, 11, 21, 31] ++ List.replicate 16 24) 5 [7, 7]).2.2.2
      1 (by decide) (by decide) (by decide)⟩

/-- C8. `EncryptBlocks` is not the in-order concatenation of per-block encryption
on a list that holds an empty block.  With plaintext blocks of 4 bytes, nonces of
2 bytes (ciphertext blocks of 22 bytes), the blocks `{1,2,3,4}` and `{}` (slices
of capacity 4 and 0), first block number 5 and fileID `{7,7}`: every call of
`EncryptBlock` returns, the second one the empty slice of the caller; handing
that slice to `cBlockPool.Put` panics, so `EncryptBlocks` produces no result,
while `EncryptBlock(blocks[0], 5, f) ‖ EncryptBlock(blocks[1], 6, f)` exists and
is the 22 bytes of the first ciphertext block. -/
theorem EncryptBlocks_empty_block_panics :
    doEncryptBlocks toyBE (fun _ => [1, 2]) [[1, 2, 3, 4], []] [[], []] 5 [7, 7]
      = some [[1, 2, 2, 3, 4, 5, 22, 22, 22, 22, 22, 22, 22, 22, 22, 22, 22, 22, 22, 22, 22, 22],
          []] ∧
    EncryptBlock toyBE [1, 2] [] 6 [7, 7] = .ok [] ∧
    toyBE.cBlockPool.Put (ciphertextCap toyBE [] 0 []) = none ∧
    EncryptBlocks toyBE 1 [] (fun _ => [1, 2]) (fun i => [4, 0].getD i 0)
      [[1, 2, 3, 4], []] 5 [7, 7] = none ∧
    concatEncrypt toyBE (fun _ => [1, 2]) [[1, 2, 3, 4], []] 5 [7, 7]
      = some [1, 2, 2, 3, 4, 5, 22, 22, 22, 22, 22, 22, 22, 22, 22, 22, 22, 22, 22, 22, 22, 22] :=
  ⟨by decide, rfl, by decide, by decide, by decide⟩

/-- C11. forceDecode keeps unverified data: for a content encryptor built by
`New` with forceDecode set, (1) when a chunk fails only the AEAD authentication
check (`Open` returns `ErrAuth`), `DecryptBlock` returns the bytes produced by
`Open` together with that error, and on any other error of `Open` it returns no
bytes; (2) if every chunk decrypts or fails only the authentication check,
`DecryptBlocks` returns the bytes of all chunks, each at its chunk's position,
chunk `i` being decrypted under block number `n + i` (in `uint64`), with the
error of the last chunk; (3) if chunk `j` is the first with any other error,
`DecryptBlocks` stops there: it returns the bytes of the chunks before `j` and
the error of chunk `j`. -/
theorem DecryptBlocks_forceDecode {cc : CryptoCore} {plainBS : Nat} {junk : Nat → Nat}
    {be : ContentEnc} (hNew : New cc plainBS true junk = .ok be)
    (ct : Bytes) (n : Nat) (f : Bytes) :
    (∀ (nonce body : Bytes) (b : Nat), nonce.length = cc.IVLen → (∃ x ∈ nonce, x ≠ 0) →
      ((cc.AEADCipher.openTo nonce body (aDataSpec b f)).2 = some Err.ErrAuth →
        DecryptBlock be (nonce ++ body) b f
          = ((cc.AEADCipher.openTo nonce body (aDataSpec b f)).1, some Err.ErrAuth)) ∧
      (∀ e, (cc.AEADCipher.openTo nonce body (aDataSpec b f)).2 = some e → e ≠ Err.ErrAuth →
        DecryptBlock be (nonce ++ body) b f = ([], some e))) ∧
    ((∀ i, i < numChunks be.cipherBS ct.length →
        (DecryptBlock be (chunkAt be.cipherBS ct i) (n + i) f).2 = none ∨
        (DecryptBlock be (chunkAt be.cipherBS ct i) (n + i) f).2 = some Err.ErrAuth) →
      DecryptBlocks be ct n f =
        some (((List.range (numChunks be.cipherBS ct.length)).map
          (fun i => (DecryptBlock be (chunkAt be.cipherBS ct i) (n + i) f).1)).flatten,
          if 0 < numChunks be.cipherBS ct.length then
            (DecryptBlock be (chunkAt be.cipherBS ct (numChunks be.cipherBS ct.length - 1))
              (n + (numChunks be.cipherBS ct.length - 1)) f).2
          else none)) ∧
    (∀ j, j < numChunks be.cipherBS ct.length →
      (∀ i, i < j →
        (DecryptBlock be (chunkAt be.cipherBS ct i) (n + i) f).2 = none ∨
        (DecryptBlock be (chunkAt be.cipherBS ct i) (n + i) f).2 = some Err.ErrAuth) →
      (DecryptBlock be (chunkAt be.cipherBS ct j) (n + j) f).2 ≠ none →
      (DecryptBlock be (chunkAt be.cipherBS ct j) (n + j) f).2 ≠ some Err.ErrAuth →
      DecryptBlocks be ct n f =
        some (((List.range j).map
          (fun i => (DecryptBlock be (chunkAt be.cipherBS ct i) (n + i) f).1)).flatten,
          (DecryptBlock be (chunkAt be.cipherBS ct j) (n + j) f).2)) := by
  have hc := New_cipherBS hNew
  obtain ⟨hbe, hpos, hle⟩ := New_ok hNew
  have hfd : be.forceDecode = true := by rw [hbe]; rfl
  have hsize : 0 < be.cipherBS := by rw [hc, AuthTagLen]; omega
  refine ⟨?_, ?_, ?_⟩
  · intro nonce body b hLen hNZ
    constructor
    · intro hauth
      simp [DecryptBlock, DecryptBlockLog_nonce hNew nonce body b f hLen hNZ, hauth]
    · intro e he hne
      simp [DecryptBlock, DecryptBlockLog_nonce hNew nonce body b f hLen hNZ, he, hne]
  · intro hok
    have h := DecryptBlocksLoop_no_break be f ct n hsize ct.length 0 [] none (by omega)
      (fun i _ hi => by rw [hfd]; exact forceDecode_continue _ (hok i hi))
    simp only [Nat.zero_mul, List.drop_zero, Nat.add_zero, List.nil_append, Nat.sub_zero,
      ← List.range_eq_range', DecryptBlocksLoop_mod] at h
    unfold DecryptBlocks
    rw [List.take_zero, h]
  · intro j hj hok hne1 hne2
    have h := DecryptBlocksLoop_first_break be f ct n hsize j hj
      (by rw [hfd]; exact forceDecode_break _ hne1 hne2) ct.length 0 [] none
      (by omega) (Nat.zero_le j)
      (fun i _ hi => by rw [hfd]; exact forceDecode_continue _ (hok i hi))
    simp only [Nat.zero_mul, List.drop_zero, Nat.add_zero, List.nil_append, Nat.sub_zero,
      ← List.range_eq_range', DecryptBlocksLoop_mod] at h
    unfold DecryptBlocks
    rw [List.take_zero, h]

theorem DecryptBlocks_forceDecode_witness :
    DecryptBlocks toyForceBE
        ([1, 2, 11, 21, 31, 41] ++ List.replicate 16 99 ++
          ([1, 2, 11, 21, 31] ++ List.replicate 16 23)) 5 [7, 7]
      = some ([10, 20, 30, 40, 10, 20, 30], none) ∧
    DecryptBlocks toyForceBE
        ([1, 2, 11, 21, 31, 41] ++ List.replicate 16 99 ++ [0, 0, 1]) 5 [7, 7]
      = some ([10, 20, 30, 40], some Err.allZeroNonce) :=
  ⟨(@DecryptBlocks_forceDecode toyCore 4 (fun _ => 0) toyForceBE rfl
      ([1, 2, 11, 21, 31, 41] ++ List.replicate 16 99 ++
        ([1, 2, 11, 21, 31] ++ List.replicate 16 23)) 5 [7, 7]).2.1 (by decide),
    (@DecryptBlocks_forceDecode toyCore 4 (fun _ => 0) toyForceBE rfl
      ([1, 2, 11, 21, 31, 41] ++ List.replicate 16 99 ++ [0, 0, 1]) 5 [7, 7]).2.2
      1 (by decide) (by decide) (by decide) (by decide)⟩

/-- C12, as stated, fails: for a caller that requests `O_RDONLY` (also with other
flag bits, here `O_APPEND`) the flags returned still select read-only access,
not `O_RDWR`. -/
theorem mangleOpenFlags_rdonly_counterexample :
    mangleOpenFlags O_RDONLY = (O_RDONLY, false) ∧
    (mangleOpenFlags O_RDONLY).1 &&& O_ACCMODE ≠ O_RDWR ∧
    mangleOpenFlags (O_RDONLY ||| O_APPEND) = (O_RDONLY, false) := by
  decide

/-- C12, amended. Read access regardless of requested mode: for every open-flags
value (a `uint32`) whose access mode is `O_RDONLY`, `O_WRONLY` or `O_RDWR`, the
flags `mangleOpenFlags` returns for the backing open have the access mode
`O_RDWR` when the caller requested `O_WRONLY` or `O_RDWR` and `O_RDONLY` when
the caller requested `O_RDONLY`; they have `O_APPEND` cleared; all remaining
flag bits are unchanged; and `writeOnly` is true exactly when the caller
requested `O_WRONLY`. -/
theorem mangleOpenFlags_keeps_read_access (flags : Nat) (hlt : flags < 2 ^ 32)
    (hmode : flags &&& O_ACCMODE = O_RDONLY ∨ flags &&& O_ACCMODE = O_WRONLY ∨
      flags &&& O_ACCMODE = O_RDWR) :
    ((mangleOpenFlags flags).1 &&& O_ACCMODE =
      if flags &&& O_ACCMODE = O_RDONLY then O_RDONLY else O_RDWR) ∧
    ((mangleOpenFlags flags).1 &&& O_APPEND = 0) ∧
    (∀ i, 2 ≤ i → i ≠ 10 → (mangleOpenFlags flags).1.testBit i = flags.testBit i) ∧
    ((mangleOpenFlags flags).2 = true ↔ flags &&& O_ACCMODE = O_WRONLY) := by
  simp only [and_accmode, O_RDONLY, O_WRONLY, O_RDWR] at hmode ⊢
  have hb0 := mangle_testBit flags 0
  have hb1 := mangle_testBit flags 1
  have hf0 := Nat.testBit_zero flags
  have hf1 := testBit_one_eq flags
  refine ⟨?_, ?_, ?_, ?_⟩
  · rw [mod_four_eq (mangleOpenFlags flags).1, hb0, hb1, hf0, hf1]
    by_cases h : flags % 2 = 1
    · have h2 : ¬ flags / 2 % 2 = 1 := by omega
      have h4 : ¬ flags % 4 = 0 := by omega
      simp [h, h2, h4]
    · by_cases h2 : flags / 2 % 2 = 1
      · have h4 : ¬ flags % 4 = 0 := by omega
        simp [h, h2, h4]
      · have h4 : flags % 4 = 0 := by omega
        simp [h, h2, h4]
  · apply Nat.eq_of_testBit_eq
    intro i
    rw [Nat.testBit_and, mangle_testBit, show O_APPEND = 1024 from rfl, testBit_lit_append]
    by_cases h10 : 10 = i
    · subst h10
      split_ifs <;> simp
    · split_ifs <;> simp [h10]
  · intro i hi h10
    rw [mangle_testBit]
    have h0 : ¬ 0 = i := by omega
    have h1 : ¬ 1 = i := by omega
    have h10b : ¬ 10 = i := by omega
    by_cases h64 : i < 64
    · split_ifs <;> simp [h0, h1, h10b, h64]
    · have hfalse : flags.testBit i = false := by
        apply Nat.testBit_lt_two_pow
        calc flags < 2 ^ 32 := hlt
          _ ≤ 2 ^ i := Nat.pow_le_pow_right (by decide) (by omega)
      split_ifs <;> simp [h0, h1, h10b, h64, hfalse]
  · unfold mangleOpenFlags
    simp only [O_WRONLY, Nat.and_one_is_mod]
    by_cases h : flags % 2 = 1
    · rw [if_pos (by omega)]
      simp only [true_iff]
      omega
    · rw [if_neg (by omega)]
      simp only [Bool.false_eq_true, false_iff]
      omega

theorem mangleOpenFlags_keeps_read_access_witness :
    ((mangleOpenFlags 1025).1 &&& O_ACCMODE =
      if 1025 &&& O_ACCMODE = O_RDONLY then O_RDONLY else O_RDWR) ∧
    ((mangleOpenFlags 1025).1 &&& O_APPEND = 0) ∧
    (∀ i, 2 ≤ i → i ≠ 10 → (mangleOpenFlags 1025).1.testBit i = Nat.testBit 1025 i) ∧
    ((mangleOpenFlags 1025).2 = true ↔ 1025 &&& O_ACCMODE = O_WRONLY) :=
  mangleOpenFlags_keeps_read_access 1025 (by decide) (by decide)

/-- C13. Symlink target round trip (DirIV mode): for a file system whose content
encryptor is built by `New`, every non-empty target `t`, a nonce that is not
all zeros and an AEAD whose `Open` inverts its `Seal` on this block (all of
them bytes): the link content that `Symlink` computes and hands to `os.Symlink`
is the URL-safe base64 of `EncryptBlock(t, 0, nil)` (it is computed whenever the
nonce has the configured IV length), and `Readlink`'s base64 decoding followed
by `DecryptBlock` with block number 0 and nil fileID turns it back into `t` with
status OK, so that `Readlink` returns `(t, OK)` whenever the backing store
returns this content. -/
theorem Symlink_Readlink_roundtrip (fs : FS) {cc : CryptoCore} {plainBS : Nat}
    {forceDecode : Bool} {junk : Nat → Nat}
    (hNew : New cc plainBS forceDecode junk = .ok fs.CryptFS)
    (nonce t : Bytes) (ht : t ≠ [])
    (hNZ : ∃ x ∈ nonce, x ≠ 0)
    (hInv : cc.AEADCipher.openTo nonce (cc.AEADCipher.sealTo nonce t (aDataSpec 0 []))
      (aDataSpec 0 []) = (t, none))
    (hbytes : ∀ v ∈ nonce ++ cc.AEADCipher.sealTo nonce t (aDataSpec 0 []), v < 256) :
    (nonce.length = cc.IVLen → ∃ cTarget, fs.encodeLinkTarget nonce t = .ok cTarget) ∧
    (∀ cTarget, fs.encodeLinkTarget nonce t = .ok cTarget →
      cTarget = EncodeToString (nonce ++ cc.AEADCipher.sealTo nonce t (aDataSpec 0 [])) ∧
      fs.decodeLinkTarget cTarget = (t, fuse.OK) ∧
      (∀ calls linkName, fs.args.DirIV = true → fs.IsFiltered linkName = false →
        (fs.world calls (.encryptPath linkName)).err = none →
        (fs.Symlink nonce t linkName).run calls =
          (.ok (fuse.ToStatus (fs.world (calls ++ [.encryptPath linkName])
              (.osSymlink cTarget
                (fs.Join fs.args.Cipherdir (fs.world calls (.encryptPath linkName)).str))).err),
            calls ++ [.encryptPath linkName] ++
              [.osSymlink cTarget
                (fs.Join fs.args.Cipherdir (fs.world calls (.encryptPath linkName)).str)])) ∧
      (∀ calls path, fs.args.DirIV = true →
        (fs.world calls (.encryptPath path)).err = none →
        (fs.world (calls ++ [.encryptPath path])
          (.fsReadlink (fs.world calls (.encryptPath path)).str)).status = fuse.OK →
        (fs.world (calls ++ [.encryptPath path])
          (.fsReadlink (fs.world calls (.encryptPath path)).str)).str = cTarget →
        ((fs.Readlink path).run calls).1 = (t, fuse.OK))) := by
  obtain ⟨hbe, _, _⟩ := New_ok hNew
  have hcc : fs.CryptFS.cryptoCore = cc := by rw [hbe]; rfl
  by_cases hLen : nonce.length = cc.IVLen
  · have henc : EncryptBlock fs.CryptFS nonce t 0 []
        = .ok (nonce ++ cc.AEADCipher.sealTo nonce t (aDataSpec 0 [])) := by
      rw [EncryptBlock, doEncryptBlock, doEncryptBlockLog_nonempty hNew t 0 [] nonce ht hLen]
    have hdec : DecryptBlock fs.CryptFS
        (nonce ++ cc.AEADCipher.sealTo nonce t (aDataSpec 0 [])) 0 [] = (t, none) := by
      simp [DecryptBlock, DecryptBlockLog_nonce hNew nonce _ 0 [] hLen hNZ, hInv]
    have hlink : fs.encodeLinkTarget nonce t
        = .ok (EncodeToString (nonce ++ cc.AEADCipher.sealTo nonce t (aDataSpec 0 []))) := by
      simp only [FS.encodeLinkTarget, henc]
    have hback : fs.decodeLinkTarget
        (EncodeToString (nonce ++ cc.AEADCipher.sealTo nonce t (aDataSpec 0 [])))
          = (t, fuse.OK) := by
      simp only [FS.decodeLinkTarget, DecodeString_EncodeToString _ hbytes, hdec]
    refine ⟨fun _ => ⟨_, hlink⟩, ?_⟩
    intro cTarget hct
    rw [hlink] at hct
    injection hct with hct
    subst hct
    refine ⟨rfl, hback, ?_, ?_⟩
    · intro calls linkName hdiriv hfilt herr
      simp only [FS.Symlink, hfilt, Bool.false_eq_true, if_false, StateT.run_bind,
        getBackingPath_run, herr, Option.isSome_none, Id.bind_eq, hdiriv, Bool.not_true, hlink,
        call_run, StateT.run_pure, Id.pure_eq, Id.map_eq, Id.run]
    · intro calls path hdiriv herr hstat hstr
      simp only [FS.Readlink, StateT.run_bind, call_run, Id.bind_eq, herr, Option.isSome_none,
        Bool.false_eq_true, if_false, hstat, ne_eq, not_true_eq_false, hdiriv, Bool.not_true,
        hstr, hback, StateT.run_pure, Id.pure_eq, Id.run]
  · refine ⟨fun h => absurd h hLen, ?_⟩
    intro cTarget hct
    have herr : EncryptBlock fs.CryptFS nonce t 0 [] = .error .wrongNonceLength := by
      rw [EncryptBlock, doEncryptBlock,
        doEncryptBlockLog_wrong_nonce fs.CryptFS t 0 [] nonce ht (by rw [hcc]; exact hLen)]
    simp only [FS.encodeLinkTarget, herr] at hct
    cases hct

theorem Symlink_Readlink_roundtrip_witness :
    ∃ cTarget, toyFS.encodeLinkTarget [1, 2] [10, 20, 30] = .ok cTarget ∧
      toyFS.decodeLinkTarget cTarget = ([10, 20, 30], fuse.OK) :=
  ((@Symlink_Readlink_roundtrip toyFS toyCore 4 false (fun _ => 0) rfl [1, 2] [10, 20, 30]
    (by decide) (by decide) (by decide) (by decide)).1 (by decide)).imp
    (fun c h => ⟨h, ((@Symlink_Readlink_roundtrip toyFS toyCore 4 false (fun _ => 0) rfl [1, 2]
      [10, 20, 30] (by decide) (by decide) (by decide) (by decide)).2 c h).2.1⟩)

/-- C14, as stated, fails: in a file system where `gocryptfs.conf` is filtered,
`OpenDir`, `Readlink` and `Rmdir` on that name, and `Rename` and `Link` with
that name as the old path, do not return EPERM and do call the backing store. -/
theorem filtered_name_counterexample :
    toyFS.IsFiltered (ascii "gocryptfs.conf") = true ∧
    (toyFS.OpenDir (ascii "gocryptfs.conf")).run [] =
      (([], fuse.OK),
        [.encryptPath (ascii "gocryptfs.conf"), .fsOpenDir (ascii "enc-gocryptfs.conf")]) ∧
    (toyFS.Readlink (ascii "gocryptfs.conf")).run [] =
      (([], fuse.OK),
        [.encryptPath (ascii "gocryptfs.conf"), .fsReadlink (ascii "enc-gocryptfs.conf")]) ∧
    (toyFS.Rmdir (ascii "gocryptfs.conf")).run [] =
      (fuse.OK,
        [.encryptPath (ascii "gocryptfs.conf"),
          .osOpen (ascii "/cipher/enc-gocryptfs.conf"),
          .Readdirnames 0 10,
          .Fstat 0,
          .osRename (ascii "/cipher/enc-gocryptfs.conf/gocryptfs.diriv")
            (ascii "/cipher/enc-gocryptfs.conf/gocryptfs.diriv.rmdir.0"),
          .syscallRmdir (ascii "/cipher/enc-gocryptfs.conf"),
          .syscallUnlink (ascii "/cipher/enc-gocryptfs.conf/gocryptfs.diriv.rmdir.0"),
          .clearDirIVCache,
          .fdClose 0]) ∧
    (toyFS.Rename (ascii "gocryptfs.conf") (ascii "x")).run [] =
      (fuse.OK,
        [.encryptPath (ascii "gocryptfs.conf"), .encryptPath (ascii "x"), .clearDirIVCache,
          .fsRename (ascii "/cipher/enc-gocryptfs.conf") (ascii "/cipher/enc-x")]) ∧
    (toyFS.Link (ascii "gocryptfs.conf") (ascii "x")).run [] =
      (fuse.OK,
        [.encryptPath (ascii "gocryptfs.conf"), .encryptPath (ascii "x"),
          .osLink (ascii "/cipher/enc-gocryptfs.conf") (ascii "/cipher/enc-x")]) :=
  ⟨by decide, rfl, rfl, rfl, rfl, rfl⟩

/-- C14, amended. Reserved-name filtering: for `GetAttr`, `Open`, `Create`,
`Chmod`, `Chown`, `Mknod`, `Utimens`, `Mkdir`, `Unlink` and `Access` with a path
for which `IsFiltered` is true, for `Symlink` with such a link name, and for
`Rename` and `Link` with such a new path, the operation returns the
permission-denied status (EPERM) and makes no call at all: the backing store is
not touched. -/
theorem filtered_name_rejected (fs : FS) (path : Bytes) (calls : List Effect)
    (h : fs.IsFiltered path = true) :
    (fs.GetAttr path).run calls = ((none, fuse.EPERM), calls) ∧
    (∀ flags, (fs.Open path flags).run calls = ((none, fuse.EPERM), calls)) ∧
    (∀ flags mode, (fs.Create path flags mode).run calls = ((none, fuse.EPERM), calls)) ∧
    (∀ mode, (fs.Chmod path mode).run calls = (fuse.EPERM, calls)) ∧
    (∀ uid gid, (fs.Chown path uid gid).run calls = (fuse.EPERM, calls)) ∧
    (∀ mode dev, (fs.Mknod path mode dev).run calls = (fuse.EPERM, calls)) ∧
    (∀ Atime Mtime, (fs.Utimens path Atime Mtime).run calls = (fuse.EPERM, calls)) ∧
    (∀ mode, (fs.Mkdir path mode).run calls = (fuse.EPERM, calls)) ∧
    ((fs.Unlink path).run calls = (fuse.EPERM, calls)) ∧
    (∀ mode, (fs.Access path mode).run calls = (fuse.EPERM, calls)) ∧
    (∀ nonce target, (fs.Symlink nonce target path).run calls = (.ok fuse.EPERM, calls)) ∧
    (∀ oldPath, (fs.Rename oldPath path).run calls = (fuse.EPERM, calls)) ∧
    (∀ oldPath, (fs.Link oldPath path).run calls = (fuse.EPERM, calls)) := by
  refine ⟨?_, ?_, ?_, ?_, ?_, ?_, ?_, ?_, ?_, ?_, ?_, ?_, ?_⟩
  · simp only [FS.GetAttr, h, if_true]; rfl
  · intro flags; simp only [FS.Open, h, if_true]; rfl
  · intro flags mode; simp only [FS.Create, h, if_true]; rfl
  · intro mode; simp only [FS.Chmod, h, if_true]; rfl
  · intro uid gid; simp only [FS.Chown, h, if_true]; rfl
  · intro mode dev; simp only [FS.Mknod, h, if_true]; rfl
  · intro Atime Mtime; simp only [FS.Utimens, h, if_true]; rfl
  · intro mode; simp only [FS.Mkdir, h, if_true]; rfl
  · simp only [FS.Unlink, h, if_true]; rfl
  · intro mode; simp only [FS.Access, h, if_true]; rfl
  · intro nonce target; simp only [FS.Symlink, h, if_true]; rfl
  · intro oldPath; simp only [FS.Rename, h, if_true]; rfl
  · intro oldPath; simp only [FS.Link, h, if_true]; rfl

theorem filtered_name_rejected_witness :
    (toyFS.GetAttr (ascii "gocryptfs.conf")).run [] = ((none, fuse.EPERM), []) ∧
    (toyFS.Rename (ascii "x") (ascii "gocryptfs.conf")).run [] = (fuse.EPERM, []) :=
  ⟨(filtered_name_rejected toyFS (ascii "gocryptfs.conf") [] (by decide)).1,
    (filtered_name_rejected toyFS (ascii "gocryptfs.conf") [] (by decide)).2.2.2.2.2.2.2.2.2.2.2.1
      (ascii "x")⟩

end Gocryptfs
